import Mathlib

/-!
Shallow embedding of the trip-construction and fleet-scheduling engine of
`create_route.py` / `test.py` (ready-mix concrete dispatch planner).

Modelling conventions:
* Python floats are idealized as rationals (`ℚ`); a coordinate component
  that may be NaN (pgeocode can return NaN) is `Option ℚ` with `none`
  playing the role of NaN, matching the code's only non-finiteness test
  (`math.isnan`).
* The trigonometric haversine kernel (`R * c` computed from sin/cos/atan2)
  is not exactly representable over `ℚ`; it is abstracted as a `Geo`
  structure carrying an arbitrary kernel function.  Every theorem below
  holds for every kernel, and witnesses instantiate it with a concrete one.
* The random draw `random.random()` of `prioritize_pool_orders` and the
  `random.shuffle` permutation are passed in explicitly (`r : ℚ`,
  `shuffle : List Orders → List Orders`).
* The unbounded `while vol > 0` packing loop is embedded with an explicit
  fuel argument; `fuelFor` is proved sufficient below, so the fueled
  function agrees with the Python loop.
-/

/-- Truck size classes (the `"Small_Truck" / "Medium_Truck" / "Big_Truck"`
string enum of the source). -/
inductive TruckType where
  | Small_Truck
  | Medium_Truck
  | Big_Truck
  deriving DecidableEq, Repr, Inhabited

/-- The `route_type` enum `{"Direct", "Shared", "Leftover"}`. -/
inductive RouteType where
  | Direct
  | Shared
  | Leftover
  deriving DecidableEq, Repr, Inhabited

/-- A latitude/longitude pair; `none` models a NaN component. -/
structure Coordinates where
  latitude : Option ℚ
  longitude : Option ℚ
  deriving DecidableEq, Repr, Inhabited

/-- An order record (the pydantic `Orders` model of `utils.py`;
the `date` field is opaque to the engine and modelled as an integer). -/
structure Orders where
  customer_id : ℤ
  coordinates : Coordinates
  order_volume : ℚ
  strength : String
  Dmax : ℚ
  consistency : String
  exposure : String
  date : ℤ := 0
  deriving DecidableEq, Repr, Inhabited

-- --- KONSTANTEN ---

def BIG_TRUCK : ℚ := 12
def MEDIUM_TRUCK : ℚ := 7
def SMALL_TRUCK : ℚ := 3

def TIME_LOADING : ℚ := 1/4
def TIME_SERVICE : ℚ := 3/4
def SPEED_KMH : ℚ := 60
def START_HOUR : ℚ := 8

def MAX_CONCRETE_LIFESPAN : ℚ := 6

def PLANT_COORDS : Coordinates :=
  { latitude := some (47624/1000), longitude := some (190655/10000) }

/-- Abstract great-circle kernel: the value `R * c` that the haversine body
of `calculate_distance` computes from four finite coordinate components.
The trigonometric part is kept abstract; all theorems hold for every
kernel. -/
structure Geo where
  hav : ℚ → ℚ → ℚ → ℚ → ℚ

/-- `calculate_distance`: NaN fallback of 50.0 km, else the haversine
great-circle distance. -/
def calculate_distance (g : Geo) (coord1 coord2 : Coordinates) : ℚ :=
  if coord1.latitude = none ∨ coord1.longitude = none ∨
     coord2.latitude = none ∨ coord2.longitude = none then
    50
  else
    g.hav (coord1.latitude.getD 0) (coord1.longitude.getD 0)
          (coord2.latitude.getD 0) (coord2.longitude.getD 0)

/-- `get_travel_time`: `(dist_km / SPEED_KMH) * 1.1`, with a 1.0 h fallback
when the input is NaN (`none`). -/
def get_travel_time (dist_km : Option ℚ) : ℚ :=
  match dist_km with
  | none => 1
  | some d => d / SPEED_KMH * (11/10)

/-- Truncation toward zero, as Python's `int()` on a float. -/
def intTrunc (q : ℚ) : ℤ :=
  if 0 ≤ q then ⌊q⌋ else -⌊-q⌋

/-- Zero-padded two-digit rendering (`f"{n:02d}"`). -/
def pad2 (n : ℤ) : String :=
  if 0 ≤ n ∧ n < 10 then "0" ++ toString n else toString n

/-- `format_time`: fractional hours to `"HH:MM"` with a `" (+Nd)"` suffix
from 24 h on.  (The NaN branch of the source cannot fire over `ℚ`.) -/
def format_time (hours_float : ℚ) : String :=
  let hours := intTrunc hours_float
  let minutes := intTrunc ((hours_float - hours) * 60)
  if 24 ≤ hours then
    pad2 (hours % 24) ++ ":" ++ pad2 minutes ++ " (+" ++ toString (hours / 24) ++ "d)"
  else
    pad2 hours ++ ":" ++ pad2 minutes

/-- `get_best_truck` of both source files, merged behind the
`AVOID_SMALL_TRUCKS` flag (`avoid = false`: `create_route.py`;
`avoid = true`: `test.py`, loads ≤ 3.0 m³ billed against Medium). -/
def get_best_truck (avoid : Bool) (volume : ℚ) : TruckType × ℚ :=
  if volume ≤ SMALL_TRUCK then
    if avoid then (TruckType.Medium_Truck, MEDIUM_TRUCK)
    else (TruckType.Small_Truck, SMALL_TRUCK)
  else if volume ≤ MEDIUM_TRUCK then (TruckType.Medium_Truck, MEDIUM_TRUCK)
  else (TruckType.Big_Truck, BIG_TRUCK)

/-- Capacity of a truck class (the `truck_caps` table of `test.py`). -/
def capOf : TruckType → ℚ
  | TruckType.Small_Truck => SMALL_TRUCK
  | TruckType.Medium_Truck => MEDIUM_TRUCK
  | TruckType.Big_Truck => BIG_TRUCK

-- --- POOLING ---

/-- Append `o` to the pool of key `k`, creating the pool at the end if the
key is new (Python dict insertion order). -/
def poolInsert {κ : Type} [DecidableEq κ] (k : κ) (o : Orders) :
    List (κ × List Orders) → List (κ × List Orders)
  | [] => [(k, [o])]
  | (k', l) :: rest =>
    if k' = k then (k', l ++ [o]) :: rest else (k', l) :: poolInsert k o rest

/-- Stable partition of orders keyed by `key`, insertion-ordered as a
Python dict of lists. -/
def poolsBy {κ : Type} [DecidableEq κ] (key : Orders → κ)
    (orders : List Orders) : List (κ × List Orders) :=
  orders.foldl (fun pools o => poolInsert (key o) o pools) []

/-- The 4-field pooling key of `create_route.py`
(`strength, Dmax, consistency, exposure`). -/
def poolKey (o : Orders) : String × ℚ × String × String :=
  (o.strength, o.Dmax, o.consistency, o.exposure)

/-- The 3-field pooling key of `test.py` (`exposure` dropped). -/
def poolKeyTest (o : Orders) : String × ℚ × String :=
  (o.strength, o.Dmax, o.consistency)

/-- `create_pools` of `create_route.py`. -/
def create_pools (orders : List Orders) :
    List ((String × ℚ × String × String) × List Orders) :=
  poolsBy poolKey orders

/-- `create_pools` of `test.py`. -/
def create_pools_test (orders : List Orders) :
    List ((String × ℚ × String) × List Orders) :=
  poolsBy poolKeyTest orders

/-- The list a key is mapped to (empty when the key is absent). -/
def poolGet {κ : Type} [DecidableEq κ] :
    List (κ × List Orders) → κ → List Orders
  | [], _ => []
  | (k', l) :: rest, k => if k' = k then l else poolGet rest k

-- --- PRIORISIERUNG ---

/-- Stable insertion (descending in `f`) used to model Python's stable
`list.sort(key=..., reverse=True)`. -/
def insertByD {α : Type} (f : α → ℚ) (o : α) : List α → List α
  | [] => [o]
  | x :: xs => if f x ≤ f o then o :: x :: xs else x :: insertByD f o xs

/-- Stable descending sort by `f` (Python `sort(key=f, reverse=True)`). -/
def sortByD {α : Type} (f : α → ℚ) (l : List α) : List α :=
  l.foldr (insertByD f) []

/-- `prioritize_pool_orders`: the uniform draw `r` and the shuffle
permutation are explicit parameters standing for `random.random()` and
`random.shuffle`. -/
def prioritize_pool_orders (r : ℚ) (shuffle : List Orders → List Orders)
    (pool : List Orders) : List Orders :=
  let large_orders := pool.filter (fun o => MEDIUM_TRUCK ≤ o.order_volume)
  let small_orders := pool.filter (fun o => o.order_volume < MEDIUM_TRUCK)
  let is_priority_mode := r < 45/100
  if is_priority_mode then
    sortByD Orders.order_volume large_orders ++ small_orders
  else
    shuffle (large_orders ++ small_orders)

-- --- ROUTING & TRIPS ---

/-- A deferred volume fragment (`leftovers` dict of the source). -/
structure LeftoverItem where
  customer_id : ℤ
  volume : ℚ
  coordinates : Coordinates
  full_order : Orders
  deriving DecidableEq, Repr, Inhabited

/-- A unit of dispatch work (`trips` dict of the source);
`concrete_age_at_finish` is only set on Direct trips. -/
structure Trip where
  truck_type : TruckType
  stops : List ℤ
  volume : ℚ
  duration : ℚ
  concrete_age_at_finish : Option ℚ := none
  route_type : RouteType
  deriving DecidableEq, Repr, Inhabited

/-- `optimize_stop_sequence`: plant→A→B vs plant→B→A, ties favouring
`[A, B]`. -/
def optimize_stop_sequence (g : Geo) (stop_a stop_b : LeftoverItem) :
    LeftoverItem × LeftoverItem :=
  let dist_plant_a := calculate_distance g PLANT_COORDS stop_a.coordinates
  let dist_plant_b := calculate_distance g PLANT_COORDS stop_b.coordinates
  let dist_a_b := calculate_distance g stop_a.coordinates stop_b.coordinates
  let len_a_b := dist_plant_a + dist_a_b
  let len_b_a := dist_plant_b + dist_a_b
  if len_a_b ≤ len_b_a then (stop_a, stop_b) else (stop_b, stop_a)

/-- One Direct trip for `order` with the current full truck load. -/
def mkDirectTrip (g : Geo) (order : Orders) (ttype : TruckType)
    (tcap : ℚ) : Trip :=
  let dist := calculate_distance g PLANT_COORDS order.coordinates
  let t_travel := get_travel_time (some dist)
  let concrete_age := TIME_LOADING + t_travel + TIME_SERVICE
  let duration := TIME_LOADING + t_travel + TIME_SERVICE + t_travel
  { truck_type := ttype
    stops := [order.customer_id]
    volume := tcap
    duration := duration
    concrete_age_at_finish := some concrete_age
    route_type := RouteType.Direct }

/-- Fuel sufficient for the `while vol > 0` packing loop (proved below):
`⌈vol / MEDIUM_TRUCK⌉ + 1` iterations. -/
def fuelFor (v : ℚ) : ℕ :=
  (⌈v / MEDIUM_TRUCK⌉).toNat + 1

/-- The `while vol > 0` body of SCHRITT 1 (direct packing) for one order,
with explicit fuel; returns emitted Direct trips, the deferred leftover
(if any) and the remaining volume when fuel runs out. -/
def packLoop (g : Geo) (order : Orders) :
    ℕ → ℚ → List Trip × List LeftoverItem × ℚ
  | 0, vol => ([], [], vol)
  | fuel + 1, vol =>
    if 0 < vol then
      if BIG_TRUCK ≤ vol then
        let (ts, ls, rem) := packLoop g order fuel (vol - BIG_TRUCK)
        (mkDirectTrip g order TruckType.Big_Truck BIG_TRUCK :: ts, ls, rem)
      else if MEDIUM_TRUCK ≤ vol then
        let (ts, ls, rem) := packLoop g order fuel (vol - MEDIUM_TRUCK)
        (mkDirectTrip g order TruckType.Medium_Truck MEDIUM_TRUCK :: ts, ls, rem)
      else
        ([], [{ customer_id := order.customer_id
                volume := vol
                coordinates := order.coordinates
                full_order := order }], 0)
    else ([], [], vol)

/-- Direct packing of one order (the loop run with sufficient fuel). -/
def packOrder (g : Geo) (order : Orders) : List Trip × List LeftoverItem :=
  let (ts, ls, _) := packLoop g order (fuelFor order.order_volume) order.order_volume
  (ts, ls)

/-- SCHRITT 1 over the whole prioritized pool: trips and leftovers
accumulate in processing order. -/
def packAll (g : Geo) : List Orders → List Trip × List LeftoverItem
  | [] => ([], [])
  | o :: rest =>
    let (ts, ls) := packOrder g o
    let (ts', ls') := packAll g rest
    (ts ++ ts', ls ++ ls')

-- --- SCHRITT 2: Reste Optimieren (Pairing) ---

/-- The running best candidate of the inner partner-search loop
(`best_metric, best_match_idx, chosen_truck_type/cap, best_stops_order,
best_duration`); `none` models the initial `best_metric = inf`. -/
structure Cand where
  metric : ℚ
  idx : ℕ
  bItem : LeftoverItem
  ttype : TruckType
  tcap : ℚ
  s0 : LeftoverItem
  s1 : LeftoverItem
  duration : ℚ
  deriving DecidableEq, Repr, Inhabited

/-- Concrete age when the load is fully unloaded at the second stop:
`TIME_LOADING + t1 + TIME_SERVICE + t2 + TIME_SERVICE`. -/
def sharedAge (g : Geo) (s0 s1 : LeftoverItem) : ℚ :=
  let d1 := calculate_distance g PLANT_COORDS s0.coordinates
  let t1 := get_travel_time (some d1)
  let d2 := calculate_distance g s0.coordinates s1.coordinates
  let t2 := get_travel_time (some d2)
  TIME_LOADING + t1 + TIME_SERVICE + t2 + TIME_SERVICE

/-- Round-trip duration of a two-stop Shared trip. -/
def sharedDuration (g : Geo) (s0 s1 : LeftoverItem) : ℚ :=
  let d1 := calculate_distance g PLANT_COORDS s0.coordinates
  let t1 := get_travel_time (some d1)
  let d2 := calculate_distance g s0.coordinates s1.coordinates
  let t2 := get_travel_time (some d2)
  let d3 := calculate_distance g s1.coordinates PLANT_COORDS
  let t3 := get_travel_time (some d3)
  TIME_LOADING + t1 + TIME_SERVICE + t2 + TIME_SERVICE + t3

/-- The pairing score `d2 + waste * 5.0` of a candidate pairing `(a, b)`
(inter-stop distance plus weighted wasted capacity). -/
def pairScore (g : Geo) (avoid : Bool) (a b : LeftoverItem) : ℚ :=
  let stops := optimize_stop_sequence g a b
  let d2 := calculate_distance g stops.1.coordinates stops.2.coordinates
  let t_cap := (get_best_truck avoid (a.volume + b.volume)).2
  d2 + (t_cap - (a.volume + b.volume)) * 5

/-- The candidate record built when pairing `(a, b)` passes all checks. -/
def mkCand (g : Geo) (avoid : Bool) (a : LeftoverItem) (j : ℕ)
    (b : LeftoverItem) : Cand :=
  { metric := pairScore g avoid a b
    idx := j
    bItem := b
    ttype := (get_best_truck avoid (a.volume + b.volume)).1
    tcap := (get_best_truck avoid (a.volume + b.volume)).2
    s0 := (optimize_stop_sequence g a b).1
    s1 := (optimize_stop_sequence g a b).2
    duration := sharedDuration g (optimize_stop_sequence g a b).1
        (optimize_stop_sequence g a b).2 }

/-- One step of the inner `for j, item_b` partner-search loop. -/
def considerCand (g : Geo) (avoid : Bool) (a : LeftoverItem) (i : ℕ)
    (processed : List ℕ) (best : Option Cand) (jb : ℕ × LeftoverItem) :
    Option Cand :=
  if i = jb.1 ∨ jb.1 ∈ processed then best
  else if BIG_TRUCK < a.volume + jb.2.volume then best
  else if MAX_CONCRETE_LIFESPAN <
      sharedAge g (optimize_stop_sequence g a jb.2).1
        (optimize_stop_sequence g a jb.2).2 then best
  else
    match best with
    | none => some (mkCand g avoid a jb.1 jb.2)
    | some c =>
      if pairScore g avoid a jb.2 < c.metric then
        some (mkCand g avoid a jb.1 jb.2)
      else best

/-- The full inner partner-search loop for item `a` at index `i`. -/
def findBest (g : Geo) (avoid : Bool) (L : List LeftoverItem)
    (a : LeftoverItem) (i : ℕ) (processed : List ℕ) : Option Cand :=
  L.enum.foldl (considerCand g avoid a i processed) none

/-- The Shared trip built from a chosen candidate. -/
def mkSharedTrip (a : LeftoverItem) (c : Cand) : Trip :=
  { truck_type := c.ttype
    stops := [c.s0.customer_id, c.s1.customer_id]
    volume := a.volume + c.bItem.volume
    duration := c.duration
    route_type := RouteType.Shared }

/-- The solo (Leftover) trip for an item with no feasible partner. -/
def mkSoloTrip (g : Geo) (avoid : Bool) (a : LeftoverItem) : Trip :=
  let tb := get_best_truck avoid a.volume
  let dist := calculate_distance g PLANT_COORDS a.coordinates
  let t_travel := get_travel_time (some dist)
  let duration := TIME_LOADING + t_travel + TIME_SERVICE + t_travel
  { truck_type := tb.1
    stops := [a.customer_id]
    volume := a.volume
    duration := duration
    route_type := RouteType.Leftover }

/-- The outer `for i, item_a in enumerate(leftovers)` loop; `rem` is the
remaining suffix of `L.enum` and `processed` the set of consumed indices. -/
def pairGo (g : Geo) (avoid : Bool) (L : List LeftoverItem) :
    List (ℕ × LeftoverItem) → List ℕ → List Trip
  | [], _ => []
  | (i, item_a) :: rest, processed =>
    if i ∈ processed then pairGo g avoid L rest processed
    else
      match findBest g avoid L item_a i processed with
      | some c => mkSharedTrip item_a c :: pairGo g avoid L rest (i :: c.idx :: processed)
      | none => mkSoloTrip g avoid item_a :: pairGo g avoid L rest (i :: processed)

/-- SCHRITT 2: sort leftovers descending by volume, then greedy pairing. -/
def pairLeftovers (g : Geo) (avoid : Bool) (leftovers : List LeftoverItem) :
    List Trip :=
  let L := sortByD LeftoverItem.volume leftovers
  pairGo g avoid L L.enum []

/-- `generate_trips_for_pool` (both source files; `avoid` selects the
`AVOID_SMALL_TRUCKS` variant of `test.py`). -/
def generate_trips_for_pool (g : Geo) (avoid : Bool) (r : ℚ)
    (shuffle : List Orders → List Orders) (pool : List Orders) : List Trip :=
  let sorted_pool := prioritize_pool_orders r shuffle pool
  let (trips, leftovers) := packAll g sorted_pool
  trips ++ pairLeftovers g avoid leftovers

-- --- FLEET SCHEDULING ---

/-- A scheduling-time truck (`fleet` entry). -/
structure FleetTruck where
  id : ℕ
  ttype : TruckType
  available_at : ℚ
  deriving DecidableEq, Repr, Inhabited

/-- A trip together with its attached `schedule` sub-record. -/
structure SchedEntry where
  trip : Trip
  truck_id : ℕ
  start_time : String
  end_time : String
  duration_h : ℚ
  deriving DecidableEq, Repr, Inhabited

/-- Rounding to two decimals (idealized half-up over `ℚ`). -/
def round2 (q : ℚ) : ℚ :=
  (⌊q * 100 + 1/2⌋ : ℚ) / 100

/-- Mutable state of the `schedule_fleet` loop. -/
structure SchedState where
  sched : List SchedEntry
  fleet : List FleetTruck
  clock : ℚ
  counter : ℕ
  deriving Repr, Inhabited

/-- Whether `truck` can take a trip of class `needed` starting at `start`. -/
def truckFits (needed : TruckType) (start : ℚ) (truck : FleetTruck) : Bool :=
  truck.ttype = needed ∧ truck.available_at ≤ start

/-- The `for idx, truck in enumerate(fleet): ... break` linear search:
index of the first truck that fits, if any. -/
def findTruckIdx (needed : TruckType) (start : ℚ) :
    List FleetTruck → Option ℕ
  | [] => none
  | tr :: rest =>
    if truckFits needed start tr then some 0
    else (findTruckIdx needed start rest).map (· + 1)

/-- One iteration of the `for trip in trips` scheduling loop. -/
def scheduleStep (st : SchedState) (trip : Trip) : SchedState :=
  let needed_type := trip.truck_type
  let start_time := st.clock
  let end_time := start_time + trip.duration
  match findTruckIdx needed_type start_time st.fleet with
  | some idx =>
    let tr := st.fleet.getD idx default
    { sched := st.sched ++
        [{ trip := trip, truck_id := tr.id,
           start_time := format_time start_time,
           end_time := format_time end_time,
           duration_h := round2 trip.duration }]
      fleet := st.fleet.set idx { tr with available_at := end_time }
      clock := st.clock + TIME_LOADING
      counter := st.counter }
  | none =>
    { sched := st.sched ++
        [{ trip := trip, truck_id := st.counter,
           start_time := format_time start_time,
           end_time := format_time end_time,
           duration_h := round2 trip.duration }]
      fleet := st.fleet ++ [{ id := st.counter, ttype := needed_type,
                              available_at := end_time }]
      clock := st.clock + TIME_LOADING
      counter := st.counter + 1 }

/-- Initial scheduler state. -/
def schedInit : SchedState :=
  { sched := [], fleet := [], clock := START_HOUR, counter := 1 }

/-- Scheduler state after the first `i` trips. -/
def stateAt (trips : List Trip) (i : ℕ) : SchedState :=
  (trips.take i).foldl scheduleStep schedInit

/-- `schedule_fleet`: the full dispatch schedule. -/
def schedule_fleet (trips : List Trip) : List SchedEntry :=
  (trips.foldl scheduleStep schedInit).sched

/-- Scheduled start of the `i`-th trip (0-based). -/
def startT (i : ℕ) : ℚ :=
  START_HOUR + i * TIME_LOADING

/-- Scheduled end of the `i`-th trip. -/
def endT (trips : List Trip) (i : ℕ) : ℚ :=
  startT i + (trips.getD i default).duration

/-- Trips referencing a given customer id. -/
def refsFor (trips : List Trip) (cid : ℤ) : List Trip :=
  trips.filter (fun t => cid ∈ t.stops)

/-- Summed volume of all trips referencing a given customer id. -/
def volumeFor (trips : List Trip) (cid : ℤ) : ℚ :=
  ((refsFor trips cid).map Trip.volume).sum

-- --- HELPER LEMMAS: stable descending sort ---

theorem insertByD_perm {α : Type} (f : α → ℚ) (o : α) (l : List α) :
    List.Perm (insertByD f o l) (o :: l) := by
  induction l with
  | nil => exact List.Perm.refl _
  | cons x xs ih =>
    simp only [insertByD]
    by_cases h : f x ≤ f o
    · rw [if_pos h]
    · rw [if_neg h]
      exact (ih.cons x).trans (List.Perm.swap o x xs)

theorem sortByD_perm {α : Type} (f : α → ℚ) (l : List α) :
    List.Perm (sortByD f l) l := by
  induction l with
  | nil => exact List.Perm.refl _
  | cons x xs ih =>
    simp only [sortByD, List.foldr_cons]
    exact (insertByD_perm f x _).trans (ih.cons x)

theorem mem_insertByD {α : Type} {f : α → ℚ} {o y : α} {l : List α} :
    y ∈ insertByD f o l ↔ y = o ∨ y ∈ l := by
  rw [(insertByD_perm f o l).mem_iff]
  simp

theorem insertByD_pairwise {α : Type} {f : α → ℚ} {o : α} {l : List α}
    (hl : List.Pairwise (fun a b => f b ≤ f a) l) :
    List.Pairwise (fun a b => f b ≤ f a) (insertByD f o l) := by
  induction l with
  | nil => simp [insertByD]
  | cons x xs ih =>
    rcases List.pairwise_cons.mp hl with ⟨hx, hxs⟩
    simp only [insertByD]
    by_cases h : f x ≤ f o
    · rw [if_pos h]
      refine List.pairwise_cons.mpr ⟨?_, hl⟩
      intro y hy
      rcases List.mem_cons.mp hy with rfl | hy2
      · exact h
      · exact le_trans (hx y hy2) h
    · rw [if_neg h]
      refine List.pairwise_cons.mpr ⟨?_, ih hxs⟩
      intro y hy
      rcases mem_insertByD.mp hy with rfl | hy'
      · exact le_of_lt (lt_of_not_le h)
      · exact hx y hy'

theorem sortByD_pairwise {α : Type} (f : α → ℚ) (l : List α) :
    List.Pairwise (fun a b => f b ≤ f a) (sortByD f l) := by
  induction l with
  | nil => simp [sortByD]
  | cons x xs ih =>
    simpa only [sortByD, List.foldr_cons] using insertByD_pairwise ih

-- --- HELPER LEMMAS: pooling ---

theorem poolGet_poolInsert {κ : Type} [DecidableEq κ] (k0 k : κ) (o : Orders)
    (acc : List (κ × List Orders)) :
    poolGet (poolInsert k0 o acc) k =
      if k0 = k then poolGet acc k ++ [o] else poolGet acc k := by
  induction acc with
  | nil =>
    by_cases h : k0 = k <;> simp [poolInsert, poolGet, h]
  | cons p rest ih =>
    obtain ⟨k', l⟩ := p
    simp only [poolInsert]
    by_cases h1 : k' = k0
    · rw [if_pos h1]
      by_cases h2 : k0 = k
      · have hk : k' = k := h1.trans h2
        simp [poolGet, hk, h2]
      · have hk : ¬ k' = k := by rw [h1]; exact h2
        simp [poolGet, hk, h2]
    · rw [if_neg h1]
      by_cases h2 : k' = k
      · have hk0 : ¬ k0 = k := fun h => h1 (h2.trans h.symm)
        simp [poolGet, h2, hk0]
      · simp [poolGet, h2, ih]

theorem poolInsert_keys {κ : Type} [DecidableEq κ] (k0 : κ) (o : Orders)
    (acc : List (κ × List Orders)) :
    (poolInsert k0 o acc).map Prod.fst =
      if k0 ∈ acc.map Prod.fst then acc.map Prod.fst
      else acc.map Prod.fst ++ [k0] := by
  induction acc with
  | nil => simp [poolInsert]
  | cons p rest ih =>
    obtain ⟨k', l⟩ := p
    by_cases h1 : k' = k0
    · subst h1
      simp [poolInsert]
    · have h1' : k0 ≠ k' := fun h => h1 h.symm
      by_cases h2 : k0 ∈ rest.map Prod.fst <;>
        simp [poolInsert, h1, h1', h2, ih]

theorem poolInsert_keys_nodup {κ : Type} [DecidableEq κ] (k0 : κ) (o : Orders)
    (acc : List (κ × List Orders))
    (h : (acc.map Prod.fst).Nodup) :
    ((poolInsert k0 o acc).map Prod.fst).Nodup := by
  rw [poolInsert_keys]
  by_cases h2 : k0 ∈ acc.map Prod.fst
  · simpa [h2] using h
  · rw [if_neg h2]
    refine List.Nodup.append h (List.nodup_singleton _) ?_
    intro a ha hb
    rw [List.mem_singleton] at hb
    subst hb
    exact h2 ha

theorem poolsBy_go {κ : Type} [DecidableEq κ] (key : Orders → κ)
    (orders : List Orders) (acc : List (κ × List Orders)) :
    (∀ k, poolGet (orders.foldl (fun pools o => poolInsert (key o) o pools) acc) k
        = poolGet acc k ++ orders.filter (fun o => key o = k))
    ∧ ((acc.map Prod.fst).Nodup →
        (((orders.foldl (fun pools o => poolInsert (key o) o pools) acc)).map
          Prod.fst).Nodup) := by
  induction orders generalizing acc with
  | nil => simp
  | cons o rest ih =>
    constructor
    · intro k
      simp only [List.foldl_cons]
      rw [(ih (poolInsert (key o) o acc)).1 k, poolGet_poolInsert]
      by_cases h : key o = k
      · simp [h, List.filter_cons]
      · simp [h, List.filter_cons]
    · intro h
      simp only [List.foldl_cons]
      exact (ih (poolInsert (key o) o acc)).2 (poolInsert_keys_nodup _ _ _ h)

/-- C7 core fact, generic in the pooling key. -/
theorem poolsBy_partition {κ : Type} [DecidableEq κ] (key : Orders → κ)
    (orders : List Orders) :
    (∀ k, poolGet (poolsBy key orders) k = orders.filter (fun o => key o = k))
    ∧ ((poolsBy key orders).map Prod.fst).Nodup := by
  have h := poolsBy_go key orders []
  refine ⟨fun k => ?_, h.2 (by simp)⟩
  have := h.1 k
  simpa [poolsBy, poolGet] using this

-- --- CLAIM C7 ---

/-- C7: `create_pools` produces a stable partition: the pools carry
pairwise-distinct keys, and the pool of any key `k` consists of exactly the
input orders whose material-compatibility key is `k`, in their original
relative input order (hence every order lies in exactly one pool).  Both
call-site variants (4-field key of `create_route.py`, 3-field key of
`test.py`) are covered. -/
theorem create_pools_stable_partition (orders : List Orders) :
    (((create_pools orders).map Prod.fst).Nodup
      ∧ ∀ k, poolGet (create_pools orders) k
          = orders.filter (fun o => poolKey o = k))
    ∧ (((create_pools_test orders).map Prod.fst).Nodup
      ∧ ∀ k, poolGet (create_pools_test orders) k
          = orders.filter (fun o => poolKeyTest o = k)) := by
  have h1 := poolsBy_partition poolKey orders
  have h2 := poolsBy_partition poolKeyTest orders
  exact ⟨⟨h1.2, h1.1⟩, ⟨h2.2, h2.1⟩⟩

-- --- CLAIM C9 ---

/-- C9: `calculate_distance` returns the fixed 50.0 km fallback whenever
either input point has a NaN latitude or longitude, and `get_travel_time`
returns 1.0 h on NaN input and `(dist_km / SPEED_KMH) * 1.1` otherwise;
both are total functions (no exception path). -/
theorem distance_and_travel_fallback (g : Geo) (coord1 coord2 : Coordinates)
    (h : coord1.latitude = none ∨ coord1.longitude = none ∨
         coord2.latitude = none ∨ coord2.longitude = none) :
    calculate_distance g coord1 coord2 = 50
    ∧ get_travel_time none = 1
    ∧ ∀ d : ℚ, get_travel_time (some d) = d / SPEED_KMH * (11/10) := by
  refine ⟨?_, rfl, fun d => rfl⟩
  simp only [calculate_distance]
  rw [if_pos h]

def wGeo : Geo := ⟨fun _ _ _ _ => 0⟩
def wNaN : Coordinates := ⟨none, some 1⟩
def wOk : Coordinates := ⟨some 47, some 19⟩

theorem distance_and_travel_fallback_witness :
    (wNaN.latitude = none ∨ wNaN.longitude = none ∨
     wOk.latitude = none ∨ wOk.longitude = none)
    ∧ (calculate_distance wGeo wNaN wOk = 50
       ∧ get_travel_time none = 1
       ∧ ∀ d : ℚ, get_travel_time (some d) = d / SPEED_KMH * (11/10)) :=
  ⟨Or.inl rfl, distance_and_travel_fallback wGeo wNaN wOk (Or.inl rfl)⟩

-- --- CLAIM C10 ---

theorem fuelFor_mono {a b : ℚ} (h : a ≤ b) : fuelFor a ≤ fuelFor b := by
  simp only [fuelFor]
  have h7 : (0:ℚ) < MEDIUM_TRUCK := by norm_num [MEDIUM_TRUCK]
  have hle : a / MEDIUM_TRUCK ≤ b / MEDIUM_TRUCK := by
    apply div_le_div_of_nonneg_right h h7.le
  have := Int.ceil_le_ceil hle
  omega

theorem fuelFor_sub_med {v : ℚ} (h : MEDIUM_TRUCK ≤ v) :
    fuelFor (v - MEDIUM_TRUCK) + 1 = fuelFor v := by
  have h1 : ⌈(v - MEDIUM_TRUCK) / MEDIUM_TRUCK⌉ = ⌈v / MEDIUM_TRUCK⌉ - 1 := by
    have he : (v - MEDIUM_TRUCK) / MEDIUM_TRUCK = v / MEDIUM_TRUCK - 1 := by
      rw [sub_div, div_self (by norm_num [MEDIUM_TRUCK])]
    rw [he, Int.ceil_sub_one]
  have h2 : 1 ≤ ⌈v / MEDIUM_TRUCK⌉ := by
    have hv : (0:ℚ) < v / MEDIUM_TRUCK := by
      apply div_pos (lt_of_lt_of_le (by norm_num [MEDIUM_TRUCK]) h)
      norm_num [MEDIUM_TRUCK]
    exact Int.ceil_pos.mpr hv
  simp only [fuelFor]
  rw [h1]
  omega

theorem packLoop_stable (g : Geo) (o : Orders) :
    ∀ n v, fuelFor v ≤ n → packLoop g o n v = packLoop g o (fuelFor v) v := by
  intro n
  induction n using Nat.strong_induction_on with
  | _ n ih =>
    intro v hn
    have h1 : 1 ≤ fuelFor v := Nat.le_add_left 1 _
    obtain ⟨m, rfl⟩ : ∃ m, n = m + 1 := ⟨n - 1, by omega⟩
    obtain ⟨fv, hfv⟩ : ∃ fv, fuelFor v = fv + 1 := ⟨fuelFor v - 1, by omega⟩
    rw [hfv]
    simp only [packLoop]
    by_cases hv : 0 < v
    · rw [if_pos hv, if_pos hv]
      by_cases hb : BIG_TRUCK ≤ v
      · rw [if_pos hb, if_pos hb]
        have hmed : MEDIUM_TRUCK ≤ v :=
          le_trans (by norm_num [MEDIUM_TRUCK, BIG_TRUCK]) hb
        have hf : fuelFor (v - BIG_TRUCK) ≤ fuelFor (v - MEDIUM_TRUCK) :=
          fuelFor_mono (by simp only [MEDIUM_TRUCK, BIG_TRUCK]; linarith)
        have hf2 : fuelFor (v - MEDIUM_TRUCK) + 1 = fuelFor v :=
          fuelFor_sub_med hmed
        rw [ih m (by omega) _ (by omega), ih fv (by omega) _ (by omega)]
      · rw [if_neg hb, if_neg hb]
        by_cases hm2 : MEDIUM_TRUCK ≤ v
        · rw [if_pos hm2, if_pos hm2]
          have hf2 : fuelFor (v - MEDIUM_TRUCK) + 1 = fuelFor v :=
            fuelFor_sub_med hm2
          rw [ih m (by omega) _ (by omega), ih fv (by omega) _ (by omega)]
        · rw [if_neg hm2, if_neg hm2]
    · rw [if_neg hv, if_neg hv]

theorem packLoop_rem (g : Geo) (o : Orders) :
    ∀ n v, fuelFor v ≤ n → (packLoop g o n v).2.2 ≤ 0 := by
  intro n
  induction n using Nat.strong_induction_on with
  | _ n ih =>
    intro v hn
    have h1 : 1 ≤ fuelFor v := Nat.le_add_left 1 _
    obtain ⟨m, rfl⟩ : ∃ m, n = m + 1 := ⟨n - 1, by omega⟩
    simp only [packLoop]
    by_cases hv : 0 < v
    · rw [if_pos hv]
      by_cases hb : BIG_TRUCK ≤ v
      · rw [if_pos hb]
        have hmed : MEDIUM_TRUCK ≤ v :=
          le_trans (by norm_num [MEDIUM_TRUCK, BIG_TRUCK]) hb
        have hf : fuelFor (v - BIG_TRUCK) ≤ fuelFor (v - MEDIUM_TRUCK) :=
          fuelFor_mono (by simp only [MEDIUM_TRUCK, BIG_TRUCK]; linarith)
        have hf2 : fuelFor (v - MEDIUM_TRUCK) + 1 = fuelFor v :=
          fuelFor_sub_med hmed
        have hrec := ih m (by omega) (v - BIG_TRUCK) (by omega)
        rcases hpl : packLoop g o m (v - BIG_TRUCK) with ⟨ts, ls, rem⟩
        rw [hpl] at hrec
        simpa [hpl] using hrec
      · rw [if_neg hb]
        by_cases hm2 : MEDIUM_TRUCK ≤ v
        · rw [if_pos hm2]
          have hf2 : fuelFor (v - MEDIUM_TRUCK) + 1 = fuelFor v :=
            fuelFor_sub_med hm2
          have hrec := ih m (by omega) (v - MEDIUM_TRUCK) (by omega)
          rcases hpl : packLoop g o m (v - MEDIUM_TRUCK) with ⟨ts, ls, rem⟩
          rw [hpl] at hrec
          simpa [hpl] using hrec
        · rw [if_neg hm2]
    · rw [if_neg hv]
      simpa using le_of_not_lt hv

/-- C10: for every (finite, here: rational) order volume the direct-packing
`while vol > 0` loop terminates within `⌈v / MEDIUM_TRUCK⌉ + 1` iterations
(`fuelFor v`): after that much fuel the remaining volume is no longer
positive, and granting the loop any additional fuel does not change its
result. -/
theorem packLoop_terminates_in_ceil_iters (g : Geo) (o : Orders) (v : ℚ) :
    (packLoop g o (fuelFor v) v).2.2 ≤ 0
    ∧ ∀ extra : ℕ,
        packLoop g o (fuelFor v + extra) v = packLoop g o (fuelFor v) v :=
  ⟨packLoop_rem g o (fuelFor v) v le_rfl,
   fun _ => packLoop_stable g o _ v (Nat.le_add_right _ _)⟩

-- --- CLAIM C8 ---

/-- C8: whenever the drawn uniform value is `< 0.45` (priority mode),
`prioritize_pool_orders` returns exactly the large orders
(volume ≥ MEDIUM_TRUCK) stably sorted descending by volume, followed by the
small orders (volume < MEDIUM_TRUCK) in their original relative order; in
particular every large order appears strictly before every small order. -/
theorem prioritize_priority_mode (r : ℚ) (shuffle : List Orders → List Orders)
    (pool : List Orders) (h : r < 45/100) :
    prioritize_pool_orders r shuffle pool
      = sortByD Orders.order_volume
          (pool.filter (fun o => MEDIUM_TRUCK ≤ o.order_volume))
        ++ pool.filter (fun o => o.order_volume < MEDIUM_TRUCK)
    ∧ List.Perm
        (sortByD Orders.order_volume
          (pool.filter (fun o => MEDIUM_TRUCK ≤ o.order_volume)))
        (pool.filter (fun o => MEDIUM_TRUCK ≤ o.order_volume))
    ∧ List.Pairwise (fun a b => b.order_volume ≤ a.order_volume)
        (sortByD Orders.order_volume
          (pool.filter (fun o => MEDIUM_TRUCK ≤ o.order_volume)))
    ∧ ∀ i j (hi : i < (prioritize_pool_orders r shuffle pool).length)
        (hj : j < (prioritize_pool_orders r shuffle pool).length),
        ((prioritize_pool_orders r shuffle pool).get ⟨i, hi⟩).order_volume
            < MEDIUM_TRUCK →
        MEDIUM_TRUCK ≤
            ((prioritize_pool_orders r shuffle pool).get ⟨j, hj⟩).order_volume →
        j < i := by
  have heq : prioritize_pool_orders r shuffle pool
      = sortByD Orders.order_volume
          (pool.filter (fun o => MEDIUM_TRUCK ≤ o.order_volume))
        ++ pool.filter (fun o => o.order_volume < MEDIUM_TRUCK) := by
    simp [prioritize_pool_orders, h]
  refine ⟨heq, sortByD_perm _ _, sortByD_pairwise _ _, ?_⟩
  intro i j hi hj hsmall hlarge
  set L := sortByD Orders.order_volume
      (pool.filter (fun o => MEDIUM_TRUCK ≤ o.order_volume)) with hL
  set S := pool.filter (fun o => o.order_volume < MEDIUM_TRUCK) with hS
  have hmemL : ∀ x ∈ L, MEDIUM_TRUCK ≤ x.order_volume := by
    intro x hx
    have : x ∈ pool.filter (fun o => MEDIUM_TRUCK ≤ o.order_volume) :=
      (sortByD_perm _ _).mem_iff.mp hx
    simpa using (List.mem_filter.mp this).2
  have hmemS : ∀ x ∈ S, x.order_volume < MEDIUM_TRUCK := by
    intro x hx
    simpa using (List.mem_filter.mp hx).2
  have hlen : (prioritize_pool_orders r shuffle pool).length
      = L.length + S.length := by
    rw [heq]; simp
  have hsmall' : ((prioritize_pool_orders r shuffle pool).getD i
      default).order_volume < MEDIUM_TRUCK := by
    rw [List.getD_eq_get _ default hi]; exact hsmall
  have hlarge' : MEDIUM_TRUCK ≤ ((prioritize_pool_orders r shuffle pool).getD j
      default).order_volume := by
    rw [List.getD_eq_get _ default hj]; exact hlarge
  rw [heq] at hsmall' hlarge'
  have hiL : L.length ≤ i := by
    by_contra hlt
    push_neg at hlt
    rw [List.getD_append L S default i hlt] at hsmall'
    have hmem : L.getD i default ∈ L := by
      rw [List.getD_eq_get L default hlt]
      exact List.get_mem L i hlt
    exact absurd (hmemL _ hmem) (not_le.mpr hsmall')
  have hjL : j < L.length := by
    by_contra hge
    push_neg at hge
    rw [List.getD_append_right L S default j hge] at hlarge'
    have hj' : j - L.length < S.length := by omega
    have hmem : S.getD (j - L.length) default ∈ S := by
      rw [List.getD_eq_get S default hj']
      exact List.get_mem S _ hj'
    exact absurd hlarge' (not_le.mpr (hmemS _ hmem))
  omega

def wO1 : Orders :=
  { customer_id := 1, coordinates := wOk, order_volume := 2,
    strength := "low", Dmax := 50, consistency := "c", exposure := "m" }
def wO2 : Orders :=
  { customer_id := 2, coordinates := wOk, order_volume := 9,
    strength := "low", Dmax := 50, consistency := "c", exposure := "m" }
def wO3 : Orders :=
  { customer_id := 3, coordinates := wOk, order_volume := 8,
    strength := "low", Dmax := 50, consistency := "c", exposure := "m" }
def wPool : List Orders := [wO1, wO2, wO3]

theorem prioritize_priority_mode_witness :
    ((0:ℚ) < 45/100)
    ∧ (prioritize_pool_orders 0 id wPool
        = sortByD Orders.order_volume
            (wPool.filter (fun o => MEDIUM_TRUCK ≤ o.order_volume))
          ++ wPool.filter (fun o => o.order_volume < MEDIUM_TRUCK)
      ∧ List.Perm
          (sortByD Orders.order_volume
            (wPool.filter (fun o => MEDIUM_TRUCK ≤ o.order_volume)))
          (wPool.filter (fun o => MEDIUM_TRUCK ≤ o.order_volume))
      ∧ List.Pairwise (fun a b => b.order_volume ≤ a.order_volume)
          (sortByD Orders.order_volume
            (wPool.filter (fun o => MEDIUM_TRUCK ≤ o.order_volume)))
      ∧ ∀ i j (hi : i < (prioritize_pool_orders 0 id wPool).length)
          (hj : j < (prioritize_pool_orders 0 id wPool).length),
          ((prioritize_pool_orders 0 id wPool).get ⟨i, hi⟩).order_volume
              < MEDIUM_TRUCK →
          MEDIUM_TRUCK ≤
              ((prioritize_pool_orders 0 id wPool).get ⟨j, hj⟩).order_volume →
          j < i) :=
  ⟨by norm_num, prioritize_priority_mode 0 id wPool (by norm_num)⟩

-- --- HELPER LEMMAS: partner search ---

/-- A candidate partner `(j, b)` for item `a` at index `i` that passes all
three feasibility checks of the inner loop. -/
def Feasible (g : Geo) (a : LeftoverItem) (i : ℕ) (processed : List ℕ)
    (j : ℕ) (b : LeftoverItem) : Prop :=
  ¬(i = j ∨ j ∈ processed)
  ∧ a.volume + b.volume ≤ BIG_TRUCK
  ∧ sharedAge g (optimize_stop_sequence g a b).1
      (optimize_stop_sequence g a b).2 ≤ MAX_CONCRETE_LIFESPAN

/-- Everything the inner loop guarantees about a returned candidate. -/
def CandOK (g : Geo) (avoid : Bool) (M : List (ℕ × LeftoverItem))
    (a : LeftoverItem) (i : ℕ) (processed : List ℕ) (c : Cand) : Prop :=
  ¬(i = c.idx ∨ c.idx ∈ processed)
  ∧ (c.idx, c.bItem) ∈ M
  ∧ a.volume + c.bItem.volume ≤ BIG_TRUCK
  ∧ c.ttype = (get_best_truck avoid (a.volume + c.bItem.volume)).1
  ∧ c.tcap = (get_best_truck avoid (a.volume + c.bItem.volume)).2
  ∧ c.s0 = (optimize_stop_sequence g a c.bItem).1
  ∧ c.s1 = (optimize_stop_sequence g a c.bItem).2
  ∧ sharedAge g c.s0 c.s1 ≤ MAX_CONCRETE_LIFESPAN
  ∧ c.metric = pairScore g avoid a c.bItem
  ∧ c.duration = sharedDuration g c.s0 c.s1

theorem mkCand_ok (g : Geo) (avoid : Bool) (M : List (ℕ × LeftoverItem))
    (a : LeftoverItem) (i : ℕ) (processed : List ℕ) {j : ℕ}
    {b : LeftoverItem} (hmem : (j, b) ∈ M)
    (h1 : ¬(i = j ∨ j ∈ processed)) (h2 : ¬ BIG_TRUCK < a.volume + b.volume)
    (h3 : ¬ MAX_CONCRETE_LIFESPAN <
        sharedAge g (optimize_stop_sequence g a b).1
          (optimize_stop_sequence g a b).2) :
    CandOK g avoid M a i processed (mkCand g avoid a j b) := by
  refine ⟨h1, hmem, not_lt.mp h2, rfl, rfl, rfl, rfl, not_lt.mp h3, rfl, rfl⟩

theorem considerCand_fold (g : Geo) (avoid : Bool) (a : LeftoverItem)
    (i : ℕ) (processed : List ℕ) (M : List (ℕ × LeftoverItem)) :
    ∀ (l : List (ℕ × LeftoverItem)) (best : Option Cand),
      (∀ x ∈ l, x ∈ M) →
      (∀ c, best = some c → CandOK g avoid M a i processed c) →
      ((∀ c', l.foldl (considerCand g avoid a i processed) best = some c' →
          CandOK g avoid M a i processed c'
          ∧ (∀ jb ∈ l, Feasible g a i processed jb.1 jb.2 →
              c'.metric ≤ pairScore g avoid a jb.2)
          ∧ (∀ c₀, best = some c₀ → c'.metric ≤ c₀.metric))
       ∧ (l.foldl (considerCand g avoid a i processed) best = none →
          best = none ∧ ∀ jb ∈ l, ¬ Feasible g a i processed jb.1 jb.2)) := by
  intro l
  induction l with
  | nil =>
    intro best hl hbest
    constructor
    · intro c' h
      refine ⟨hbest c' h, by simp, fun c₀ h₀ => ?_⟩
      rw [h₀] at h
      injection h with h
      rw [h]
    · intro h
      exact ⟨h, by simp⟩
  | cons jb rest ih =>
    intro best hl hbest
    obtain ⟨j, b⟩ := jb
    have hjbM : (j, b) ∈ M := hl _ (List.mem_cons_self _ _)
    have hlrest : ∀ x ∈ rest, x ∈ M :=
      fun x hx => hl x (List.mem_cons_of_mem _ hx)
    rw [List.foldl_cons]
    by_cases h1 : i = j ∨ j ∈ processed
    · have hc : considerCand g avoid a i processed best (j, b) = best := by
        simp only [considerCand]
        rw [if_pos h1]
      rw [hc]
      have hnf : ¬ Feasible g a i processed j b := fun hf => hf.1 h1
      rcases ih best hlrest hbest with ⟨ihs, ihn⟩
      constructor
      · intro c' h
        rcases ihs c' h with ⟨hok, hmin, hle⟩
        refine ⟨hok, ?_, hle⟩
        intro x hx hfx
        rcases List.mem_cons.mp hx with rfl | hx'
        · exact absurd hfx hnf
        · exact hmin x hx' hfx
      · intro h
        rcases ihn h with ⟨hb, hall⟩
        refine ⟨hb, ?_⟩
        intro x hx
        rcases List.mem_cons.mp hx with rfl | hx'
        · exact hnf
        · exact hall x hx'
    · by_cases h2 : BIG_TRUCK < a.volume + b.volume
      · have hc : considerCand g avoid a i processed best (j, b) = best := by
          simp only [considerCand]
          rw [if_neg h1, if_pos h2]
        rw [hc]
        have hnf : ¬ Feasible g a i processed j b :=
          fun hf => absurd hf.2.1 (not_le.mpr h2)
        rcases ih best hlrest hbest with ⟨ihs, ihn⟩
        constructor
        · intro c' h
          rcases ihs c' h with ⟨hok, hmin, hle⟩
          refine ⟨hok, ?_, hle⟩
          intro x hx hfx
          rcases List.mem_cons.mp hx with rfl | hx'
          · exact absurd hfx hnf
          · exact hmin x hx' hfx
        · intro h
          rcases ihn h with ⟨hb, hall⟩
          refine ⟨hb, ?_⟩
          intro x hx
          rcases List.mem_cons.mp hx with rfl | hx'
          · exact hnf
          · exact hall x hx'
      · by_cases h3 : MAX_CONCRETE_LIFESPAN <
            sharedAge g (optimize_stop_sequence g a b).1
              (optimize_stop_sequence g a b).2
        · have hc : considerCand g avoid a i processed best (j, b) = best := by
            simp only [considerCand]
            rw [if_neg h1, if_neg h2, if_pos h3]
          rw [hc]
          have hnf : ¬ Feasible g a i processed j b :=
            fun hf => absurd hf.2.2 (not_le.mpr h3)
          rcases ih best hlrest hbest with ⟨ihs, ihn⟩
          constructor
          · intro c' h
            rcases ihs c' h with ⟨hok, hmin, hle⟩
            refine ⟨hok, ?_, hle⟩
            intro x hx hfx
            rcases List.mem_cons.mp hx with rfl | hx'
            · exact absurd hfx hnf
            · exact hmin x hx' hfx
          · intro h
            rcases ihn h with ⟨hb, hall⟩
            refine ⟨hb, ?_⟩
            intro x hx
            rcases List.mem_cons.mp hx with rfl | hx'
            · exact hnf
            · exact hall x hx'
        · have hokNew : CandOK g avoid M a i processed (mkCand g avoid a j b) :=
            mkCand_ok g avoid M a i processed hjbM h1 h2 h3
          have hmetricNew : (mkCand g avoid a j b).metric
              = pairScore g avoid a b := rfl
          cases hb : best with
          | none =>
            subst hb
            have hc : considerCand g avoid a i processed none (j, b)
                = some (mkCand g avoid a j b) := by
              simp only [considerCand]
              rw [if_neg h1, if_neg h2, if_neg h3]
            rw [hc]
            rcases ih (some (mkCand g avoid a j b)) hlrest
                (fun c hcc => by injection hcc with hcc; rw [← hcc]; exact hokNew)
              with ⟨ihs, ihn⟩
            constructor
            · intro c' h
              rcases ihs c' h with ⟨hok, hmin, hle⟩
              refine ⟨hok, ?_, ?_⟩
              · intro x hx hfx
                rcases List.mem_cons.mp hx with rfl | hx'
                · have := hle (mkCand g avoid a j b) rfl
                  rw [hmetricNew] at this
                  exact this
                · exact hmin x hx' hfx
              · intro c₀ h₀
                exact absurd h₀ (by simp)
            · intro h
              rcases ihn h with ⟨hbad, _⟩
              exact absurd hbad (by simp)
          | some c0 =>
            subst hb
            by_cases hlt : pairScore g avoid a b < c0.metric
            · have hc : considerCand g avoid a i processed (some c0) (j, b)
                  = some (mkCand g avoid a j b) := by
                simp only [considerCand]
                rw [if_neg h1, if_neg h2, if_neg h3, if_pos hlt]
              rw [hc]
              rcases ih (some (mkCand g avoid a j b)) hlrest
                  (fun c hcc => by injection hcc with hcc; rw [← hcc]; exact hokNew)
                with ⟨ihs, ihn⟩
              constructor
              · intro c' h
                rcases ihs c' h with ⟨hok, hmin, hle⟩
                have hle' : c'.metric ≤ pairScore g avoid a b := by
                  have := hle (mkCand g avoid a j b) rfl
                  rw [hmetricNew] at this
                  exact this
                refine ⟨hok, ?_, ?_⟩
                · intro x hx hfx
                  rcases List.mem_cons.mp hx with rfl | hx'
                  · exact hle'
                  · exact hmin x hx' hfx
                · intro c₀ h₀
                  injection h₀ with h₀
                  rw [← h₀]
                  exact le_trans hle' (le_of_lt hlt)
              · intro h
                rcases ihn h with ⟨hbad, _⟩
                exact absurd hbad (by simp)
            · have hc : considerCand g avoid a i processed (some c0) (j, b)
                  = some c0 := by
                simp only [considerCand]
                rw [if_neg h1, if_neg h2, if_neg h3, if_neg hlt]
              rw [hc]
              rcases ih (some c0) hlrest hbest with ⟨ihs, ihn⟩
              constructor
              · intro c' h
                rcases ihs c' h with ⟨hok, hmin, hle⟩
                refine ⟨hok, ?_, hle⟩
                intro x hx hfx
                rcases List.mem_cons.mp hx with rfl | hx'
                · have h0 : c'.metric ≤ c0.metric := hle c0 rfl
                  exact le_trans h0 (not_lt.mp hlt)
                · exact hmin x hx' hfx
              · intro h
                rcases ihn h with ⟨hbad, hall⟩
                exact absurd hbad (by simp)

theorem findBest_some {g : Geo} {avoid : Bool} {L : List LeftoverItem}
    {a : LeftoverItem} {i : ℕ} {processed : List ℕ} {c : Cand}
    (h : findBest g avoid L a i processed = some c) :
    CandOK g avoid L.enum a i processed c
    ∧ ∀ jb ∈ L.enum, Feasible g a i processed jb.1 jb.2 →
        c.metric ≤ pairScore g avoid a jb.2 := by
  have hfold := (considerCand_fold g avoid a i processed L.enum L.enum
    none (fun x hx => hx) (fun c hc => by simp at hc)).1 c h
  exact ⟨hfold.1, hfold.2.1⟩

theorem findBest_none {g : Geo} {avoid : Bool} {L : List LeftoverItem}
    {a : LeftoverItem} {i : ℕ} {processed : List ℕ}
    (h : findBest g avoid L a i processed = none) :
    ∀ jb ∈ L.enum, ¬ Feasible g a i processed jb.1 jb.2 := by
  exact ((considerCand_fold g avoid a i processed L.enum L.enum
    none (fun x hx => hx) (fun c hc => by simp at hc)).2 h).2

-- --- CLAIM C5 ---

/-- C5: every feasible candidate pairing is scored as
`dist(stop1, stop2) + 5 × (truck_capacity − combined_volume)` (with the
RouteSequencer-chosen stop order), and the partner the inner loop returns
is feasible and attains the minimum score over all feasible candidates
(the source keeps the first on ties). -/
theorem pairing_score_minimal (g : Geo) (avoid : Bool)
    (L : List LeftoverItem) (a : LeftoverItem) (i : ℕ)
    (processed : List ℕ) :
    (∀ b : LeftoverItem, pairScore g avoid a b
        = calculate_distance g (optimize_stop_sequence g a b).1.coordinates
            (optimize_stop_sequence g a b).2.coordinates
          + 5 * ((get_best_truck avoid (a.volume + b.volume)).2
              - (a.volume + b.volume)))
    ∧ (∀ c, findBest g avoid L a i processed = some c →
        Feasible g a i processed c.idx c.bItem
        ∧ c.metric = pairScore g avoid a c.bItem
        ∧ ∀ jb ∈ L.enum, Feasible g a i processed jb.1 jb.2 →
            c.metric ≤ pairScore g avoid a jb.2)
    ∧ (findBest g avoid L a i processed = none →
        ∀ jb ∈ L.enum, ¬ Feasible g a i processed jb.1 jb.2) := by
  refine ⟨?_, ?_, fun h => findBest_none h⟩
  · intro b
    simp only [pairScore]
    ring
  · intro c h
    rcases findBest_some h with ⟨hok, hmin⟩
    rcases hok with ⟨hni, _, hvol, _, _, hs0, hs1, hage, hmetric, _⟩
    refine ⟨⟨hni, hvol, ?_⟩, hmetric, hmin⟩
    rw [← hs0, ← hs1]
    exact hage

def wIa : LeftoverItem :=
  { customer_id := 1, volume := 5, coordinates := wOk, full_order := wO1 }
def wIb : LeftoverItem :=
  { customer_id := 2, volume := 5, coordinates := wOk, full_order := wO2 }
def wCand : Cand := mkCand wGeo false wIa 1 wIb

theorem findBest_witness_eval :
    findBest wGeo false [wIa, wIb] wIa 0 [] = some wCand := by
  norm_num [findBest, considerCand, mkCand, pairScore, sharedAge,
    sharedDuration, optimize_stop_sequence, calculate_distance,
    get_travel_time, get_best_truck, List.enum, List.enumFrom, wIa, wIb, wGeo,
    wOk, wCand, BIG_TRUCK, MEDIUM_TRUCK, SMALL_TRUCK, MAX_CONCRETE_LIFESPAN,
    TIME_LOADING, TIME_SERVICE, SPEED_KMH, PLANT_COORDS, wO1, wO2,
    Option.some_ne_none]

theorem pairing_score_minimal_witness :
    (findBest wGeo false [wIa, wIb] wIa 0 [] = some wCand)
    ∧ (Feasible wGeo wIa 0 [] wCand.idx wCand.bItem
       ∧ wCand.metric = pairScore wGeo false wIa wCand.bItem
       ∧ ∀ jb ∈ ([wIa, wIb] : List LeftoverItem).enum,
           Feasible wGeo wIa 0 [] jb.1 jb.2 →
           wCand.metric ≤ pairScore wGeo false wIa jb.2) :=
  ⟨findBest_witness_eval,
   (pairing_score_minimal wGeo false [wIa, wIb] wIa 0 []).2.1 wCand
     findBest_witness_eval⟩

-- --- HELPER LEMMAS: direct packing ---

theorem packLoop_trips (g : Geo) (o : Orders) :
    ∀ (n : ℕ) (v : ℚ) (t : Trip), t ∈ (packLoop g o n v).1 →
      t.route_type = RouteType.Direct ∧ t.stops = [o.customer_id]
      ∧ t.volume = capOf t.truck_type := by
  intro n
  induction n with
  | zero => intro v t ht; simp [packLoop] at ht
  | succ m ih =>
    intro v t ht
    simp only [packLoop] at ht
    by_cases hv : 0 < v
    · rw [if_pos hv] at ht
      by_cases hb : BIG_TRUCK ≤ v
      · rw [if_pos hb] at ht
        rcases hpl : packLoop g o m (v - BIG_TRUCK) with ⟨ts, ls, rem⟩
        rw [hpl] at ht
        simp only [List.mem_cons] at ht
        rcases ht with rfl | ht'
        · exact ⟨rfl, rfl, rfl⟩
        · exact ih _ t (by rw [hpl]; exact ht')
      · rw [if_neg hb] at ht
        by_cases hm : MEDIUM_TRUCK ≤ v
        · rw [if_pos hm] at ht
          rcases hpl : packLoop g o m (v - MEDIUM_TRUCK) with ⟨ts, ls, rem⟩
          rw [hpl] at ht
          simp only [List.mem_cons] at ht
          rcases ht with rfl | ht'
          · exact ⟨rfl, rfl, rfl⟩
          · exact ih _ t (by rw [hpl]; exact ht')
        · rw [if_neg hm] at ht
          simp at ht
    · rw [if_neg hv] at ht
      simp at ht

theorem packLoop_items (g : Geo) (o : Orders) :
    ∀ (n : ℕ) (v : ℚ) (it : LeftoverItem), it ∈ (packLoop g o n v).2.1 →
      it.customer_id = o.customer_id ∧ it.coordinates = o.coordinates
      ∧ 0 < it.volume ∧ it.volume < MEDIUM_TRUCK := by
  intro n
  induction n with
  | zero => intro v it hit; simp [packLoop] at hit
  | succ m ih =>
    intro v it hit
    simp only [packLoop] at hit
    by_cases hv : 0 < v
    · rw [if_pos hv] at hit
      by_cases hb : BIG_TRUCK ≤ v
      · rw [if_pos hb] at hit
        rcases hpl : packLoop g o m (v - BIG_TRUCK) with ⟨ts, ls, rem⟩
        rw [hpl] at hit
        exact ih _ it (by rw [hpl]; exact hit)
      · rw [if_neg hb] at hit
        by_cases hm : MEDIUM_TRUCK ≤ v
        · rw [if_pos hm] at hit
          rcases hpl : packLoop g o m (v - MEDIUM_TRUCK) with ⟨ts, ls, rem⟩
          rw [hpl] at hit
          exact ih _ it (by rw [hpl]; exact hit)
        · rw [if_neg hm] at hit
          simp only [List.mem_singleton] at hit
          subst hit
          exact ⟨rfl, rfl, hv, lt_of_not_le hm⟩
    · rw [if_neg hv] at hit
      simp at hit

theorem packOrder_eq (g : Geo) (o : Orders) :
    packOrder g o
      = ((packLoop g o (fuelFor o.order_volume) o.order_volume).1,
         (packLoop g o (fuelFor o.order_volume) o.order_volume).2.1) := by
  simp only [packOrder]

theorem packAll_cons (g : Geo) (o : Orders) (rest : List Orders) :
    packAll g (o :: rest)
      = ((packOrder g o).1 ++ (packAll g rest).1,
         (packOrder g o).2 ++ (packAll g rest).2) := by
  simp only [packAll]

theorem packAll_trips (g : Geo) :
    ∀ (l : List Orders) (t : Trip), t ∈ (packAll g l).1 →
      ∃ o ∈ l, t.route_type = RouteType.Direct ∧ t.stops = [o.customer_id]
        ∧ t.volume = capOf t.truck_type := by
  intro l
  induction l with
  | nil => intro t ht; simp [packAll] at ht
  | cons o rest ih =>
    intro t ht
    rw [packAll_cons] at ht
    simp only [List.mem_append] at ht
    rcases ht with ht | ht
    · rw [packOrder_eq] at ht
      exact ⟨o, List.mem_cons_self _ _, packLoop_trips g o _ _ t ht⟩
    · rcases ih t ht with ⟨o', ho', hrest⟩
      exact ⟨o', List.mem_cons_of_mem _ ho', hrest⟩

theorem packAll_items (g : Geo) :
    ∀ (l : List Orders) (it : LeftoverItem), it ∈ (packAll g l).2 →
      ∃ o ∈ l, it.customer_id = o.customer_id ∧ it.coordinates = o.coordinates
        ∧ 0 < it.volume ∧ it.volume < MEDIUM_TRUCK := by
  intro l
  induction l with
  | nil => intro it hit; simp [packAll] at hit
  | cons o rest ih =>
    intro it hit
    rw [packAll_cons] at hit
    simp only [List.mem_append] at hit
    rcases hit with hit | hit
    · rw [packOrder_eq] at hit
      exact ⟨o, List.mem_cons_self _ _, packLoop_items g o _ _ it hit⟩
    · rcases ih it hit with ⟨o', ho', hrest⟩
      exact ⟨o', List.mem_cons_of_mem _ ho', hrest⟩

-- --- HELPER LEMMAS: pairing loop ---

theorem get_best_truck_cap_eq (avoid : Bool) (v : ℚ) :
    (get_best_truck avoid v).2 = capOf (get_best_truck avoid v).1 := by
  simp only [get_best_truck]
  by_cases h1 : v ≤ SMALL_TRUCK
  · rw [if_pos h1]
    cases avoid <;> simp [capOf]
  · rw [if_neg h1]
    by_cases h2 : v ≤ MEDIUM_TRUCK
    · rw [if_pos h2]; simp [capOf]
    · rw [if_neg h2]; simp [capOf]

theorem le_capOf_get_best_truck (avoid : Bool) (v : ℚ) (h : v ≤ BIG_TRUCK) :
    v ≤ capOf (get_best_truck avoid v).1 := by
  simp only [get_best_truck]
  by_cases h1 : v ≤ SMALL_TRUCK
  · rw [if_pos h1]
    cases avoid
    · simpa [capOf] using h1
    · simp only [if_true, capOf]
      simp only [SMALL_TRUCK] at h1
      simp only [MEDIUM_TRUCK]
      linarith
  · rw [if_neg h1]
    by_cases h2 : v ≤ MEDIUM_TRUCK
    · rw [if_pos h2]; simpa [capOf] using h2
    · rw [if_neg h2]; simpa [capOf] using h

theorem pairGo_shared_src (g : Geo) (avoid : Bool) (L : List LeftoverItem) :
    ∀ (rem : List (ℕ × LeftoverItem)) (processed : List ℕ),
      ∀ t ∈ pairGo g avoid L rem processed, t.route_type = RouteType.Shared →
      ∃ (a : LeftoverItem) (i : ℕ) (pr : List ℕ) (c : Cand),
        findBest g avoid L a i pr = some c ∧ t = mkSharedTrip a c := by
  intro rem
  induction rem with
  | nil => intro processed t ht; simp [pairGo] at ht
  | cons ia rest ih =>
    intro processed t ht hs
    obtain ⟨i, item_a⟩ := ia
    simp only [pairGo] at ht
    by_cases hip : i ∈ processed
    · rw [if_pos hip] at ht
      exact ih processed t ht hs
    · rw [if_neg hip] at ht
      cases hfb : findBest g avoid L item_a i processed with
      | some c =>
        rw [hfb] at ht
        simp only [List.mem_cons] at ht
        rcases ht with rfl | ht'
        · exact ⟨item_a, i, processed, c, hfb, rfl⟩
        · exact ih _ t ht' hs
      | none =>
        rw [hfb] at ht
        simp only [List.mem_cons] at ht
        rcases ht with rfl | ht'
        · exact absurd hs (by simp [mkSoloTrip])
        · exact ih _ t ht' hs

theorem pairGo_vol_bound (g : Geo) (avoid : Bool) (L : List LeftoverItem)
    (hL : ∀ it ∈ L, it.volume ≤ BIG_TRUCK) :
    ∀ (rem : List (ℕ × LeftoverItem)) (processed : List ℕ),
      (∀ x ∈ rem, x ∈ L.enum) →
      ∀ t ∈ pairGo g avoid L rem processed, t.volume ≤ capOf t.truck_type := by
  intro rem
  induction rem with
  | nil => intro processed hsub t ht; simp [pairGo] at ht
  | cons ia rest ih =>
    intro processed hsub t ht
    obtain ⟨i, item_a⟩ := ia
    have hsubr : ∀ x ∈ rest, x ∈ L.enum :=
      fun x hx => hsub x (List.mem_cons_of_mem _ hx)
    have haL : item_a ∈ L :=
      List.snd_mem_of_mem_enum (hsub _ (List.mem_cons_self _ _))
    simp only [pairGo] at ht
    by_cases hip : i ∈ processed
    · rw [if_pos hip] at ht
      exact ih processed hsubr t ht
    · rw [if_neg hip] at ht
      cases hfb : findBest g avoid L item_a i processed with
      | some c =>
        rw [hfb] at ht
        simp only [List.mem_cons] at ht
        rcases ht with rfl | ht'
        · rcases findBest_some hfb with ⟨hok, _⟩
          rcases hok with ⟨_, _, hvol, httype, _, _, _, _, _, _⟩
          show item_a.volume + c.bItem.volume
              ≤ capOf (mkSharedTrip item_a c).truck_type
          have hty : (mkSharedTrip item_a c).truck_type = c.ttype := rfl
          rw [hty, httype]
          exact le_capOf_get_best_truck avoid _ hvol
        · exact ih _ hsubr t ht'
      | none =>
        rw [hfb] at ht
        simp only [List.mem_cons] at ht
        rcases ht with rfl | ht'
        · show item_a.volume ≤ capOf (mkSoloTrip g avoid item_a).truck_type
          have : (mkSoloTrip g avoid item_a).truck_type
              = (get_best_truck avoid item_a.volume).1 := rfl
          rw [this]
          exact le_capOf_get_best_truck avoid _ (hL _ haL)
        · exact ih _ hsubr t ht'

theorem generate_eq (g : Geo) (avoid : Bool) (r : ℚ)
    (shuffle : List Orders → List Orders) (pool : List Orders) :
    generate_trips_for_pool g avoid r shuffle pool
      = (packAll g (prioritize_pool_orders r shuffle pool)).1
        ++ pairLeftovers g avoid
            (packAll g (prioritize_pool_orders r shuffle pool)).2 := by
  simp only [generate_trips_for_pool]

-- --- CLAIM C1 ---

/-- C1: every trip emitted with `route_type` Shared was built by
`mkSharedTrip` from a candidate that the partner-search loop `findBest`,
run over the pool's own leftover list, actually returned; that
candidate's sequencer-chosen stop pair `(c.s0, c.s1)` — whose customer
ids are exactly the trip's stops — has concrete age at the second stop,
loading + travel(plant→s0) + service + travel(s0→s1) + service, at most
`MAX_CONCRETE_LIFESPAN` (6.0 h), because the inner loop excludes every
candidate pairing exceeding the bound; for every input pool, kernel,
variant and random draw. -/
theorem shared_trip_age_bound (g : Geo) (avoid : Bool) (r : ℚ)
    (shuffle : List Orders → List Orders) (pool : List Orders) (t : Trip)
    (ht : t ∈ generate_trips_for_pool g avoid r shuffle pool)
    (hs : t.route_type = RouteType.Shared) :
    ∃ (a : LeftoverItem) (i : ℕ) (pr : List ℕ) (c : Cand),
      findBest g avoid
        (sortByD LeftoverItem.volume
          (packAll g (prioritize_pool_orders r shuffle pool)).2) a i pr
        = some c
      ∧ t = mkSharedTrip a c
      ∧ c.s0 = (optimize_stop_sequence g a c.bItem).1
      ∧ c.s1 = (optimize_stop_sequence g a c.bItem).2
      ∧ t.stops = [c.s0.customer_id, c.s1.customer_id]
      ∧ sharedAge g c.s0 c.s1 ≤ MAX_CONCRETE_LIFESPAN := by
  rw [generate_eq] at ht
  rcases List.mem_append.mp ht with ht | ht
  · rcases packAll_trips g _ t ht with ⟨o, _, hdir, _⟩
    rw [hdir] at hs
    simp at hs
  · simp only [pairLeftovers] at ht
    rcases pairGo_shared_src g avoid _ _ _ t ht hs
      with ⟨a, i, pr, c, hfb, hte⟩
    rcases findBest_some hfb with ⟨hok, _⟩
    rcases hok with ⟨_, _, _, _, _, hs0, hs1, hage, _, _⟩
    exact ⟨a, i, pr, c, hfb, hte, hs0, hs1, by rw [hte]; rfl, hage⟩

def wOA : Orders :=
  { customer_id := 1, coordinates := wOk, order_volume := 5,
    strength := "low", Dmax := 50, consistency := "c", exposure := "m" }
def wOB : Orders :=
  { customer_id := 2, coordinates := wOk, order_volume := 5,
    strength := "low", Dmax := 50, consistency := "c", exposure := "m" }

def wSharedTrip : Trip :=
  { truck_type := TruckType.Big_Truck, stops := [1, 2], volume := 10,
    duration := 7/4, concrete_age_at_finish := none,
    route_type := RouteType.Shared }

/-- Concrete run of the whole pool pipeline: two 5 m³ orders at the plant
location pair into one Shared trip. -/
theorem wGen_eval :
    generate_trips_for_pool wGeo false (3/10) id [wOA, wOB] = [wSharedTrip] := by
  norm_num [generate_trips_for_pool, prioritize_pool_orders, sortByD, insertByD,
    packAll, packOrder, packLoop, fuelFor, mkDirectTrip, pairLeftovers, pairGo,
    findBest, considerCand, mkCand, pairScore, sharedAge, sharedDuration,
    optimize_stop_sequence, calculate_distance, get_travel_time, get_best_truck,
    mkSharedTrip, mkSoloTrip, List.enum, List.enumFrom, wOA, wOB, wGeo, wOk,
    wSharedTrip, BIG_TRUCK, MEDIUM_TRUCK, SMALL_TRUCK, MAX_CONCRETE_LIFESPAN,
    TIME_LOADING, TIME_SERVICE, SPEED_KMH, PLANT_COORDS, Option.some_ne_none]

theorem shared_trip_age_bound_witness :
    (wSharedTrip ∈ generate_trips_for_pool wGeo false (3/10) id [wOA, wOB])
    ∧ wSharedTrip.route_type = RouteType.Shared
    ∧ ∃ (a : LeftoverItem) (i : ℕ) (pr : List ℕ) (c : Cand),
        findBest wGeo false
          (sortByD LeftoverItem.volume
            (packAll wGeo (prioritize_pool_orders (3/10) id [wOA, wOB])).2)
          a i pr = some c
        ∧ wSharedTrip = mkSharedTrip a c
        ∧ c.s0 = (optimize_stop_sequence wGeo a c.bItem).1
        ∧ c.s1 = (optimize_stop_sequence wGeo a c.bItem).2
        ∧ wSharedTrip.stops = [c.s0.customer_id, c.s1.customer_id]
        ∧ sharedAge wGeo c.s0 c.s1 ≤ MAX_CONCRETE_LIFESPAN :=
  ⟨by rw [wGen_eval]; exact List.mem_singleton.mpr rfl, rfl,
   shared_trip_age_bound wGeo false (3/10) id [wOA, wOB] wSharedTrip
     (by rw [wGen_eval]; exact List.mem_singleton.mpr rfl) rfl⟩

-- --- CLAIM C6 ---

/-- C6: every emitted trip (Direct, Shared or Leftover) has volume at most
the capacity of its assigned truck class, in both the default tiering
variant (`avoid = false`) and the small-truck-avoidance variant
(`avoid = true`). -/
theorem trip_volume_capacity_bound (g : Geo) (avoid : Bool) (r : ℚ)
    (shuffle : List Orders → List Orders) (pool : List Orders) (t : Trip)
    (ht : t ∈ generate_trips_for_pool g avoid r shuffle pool) :
    t.volume ≤ capOf t.truck_type := by
  rw [generate_eq] at ht
  rcases List.mem_append.mp ht with ht | ht
  · rcases packAll_trips g _ t ht with ⟨o, _, _, _, hvol⟩
    exact le_of_eq hvol
  · simp only [pairLeftovers] at ht
    refine pairGo_vol_bound g avoid _ ?_ _ _ (fun x hx => hx) t ht
    intro it hit
    have hit' : it ∈ (packAll g (prioritize_pool_orders r shuffle pool)).2 :=
      (sortByD_perm _ _).mem_iff.mp hit
    rcases packAll_items g _ it hit' with ⟨o, _, _, _, _, hlt⟩
    exact le_of_lt (lt_of_lt_of_le hlt (by norm_num [MEDIUM_TRUCK, BIG_TRUCK]))

theorem trip_volume_capacity_bound_witness :
    (wSharedTrip ∈ generate_trips_for_pool wGeo true (3/10) id [wOA, wOB]
      ∨ wSharedTrip ∈ generate_trips_for_pool wGeo false (3/10) id [wOA, wOB])
    ∧ wSharedTrip.volume ≤ capOf wSharedTrip.truck_type :=
  ⟨Or.inr (by rw [wGen_eval]; exact List.mem_singleton.mpr rfl),
   trip_volume_capacity_bound wGeo false (3/10) id [wOA, wOB] wSharedTrip
     (by rw [wGen_eval]; exact List.mem_singleton.mpr rfl)⟩

-- --- HELPER LEMMAS: fleet scheduler ---

theorem findTruckIdx_some {needed : TruckType} {start : ℚ}
    {fleet : List FleetTruck} {k : ℕ}
    (h : findTruckIdx needed start fleet = some k) :
    k < fleet.length
    ∧ truckFits needed start (fleet.getD k default) = true
    ∧ ∀ m < k, truckFits needed start (fleet.getD m default) = false := by
  induction fleet generalizing k with
  | nil => simp [findTruckIdx] at h
  | cons tr rest ih =>
    simp only [findTruckIdx] at h
    by_cases hfit : truckFits needed start tr
    · rw [if_pos hfit] at h
      injection h with h
      subst h
      exact ⟨Nat.succ_pos _, hfit, fun m hm => absurd hm (Nat.not_lt_zero m)⟩
    · rw [if_neg hfit] at h
      cases hrec : findTruckIdx needed start rest with
      | none => rw [hrec] at h; simp at h
      | some k' =>
        rw [hrec] at h
        simp only [Option.map] at h
        injection h with h
        subst h
        rcases ih hrec with ⟨hlt, hfitk, hmin⟩
        refine ⟨Nat.succ_lt_succ hlt, hfitk, ?_⟩
        intro m hm
        cases m with
        | zero =>
          simpa using hfit
        | succ m' =>
          have hm' : m' < k' := Nat.lt_of_succ_lt_succ hm
          exact hmin m' hm'

theorem findTruckIdx_none {needed : TruckType} {start : ℚ}
    {fleet : List FleetTruck}
    (h : findTruckIdx needed start fleet = none) :
    ∀ tr ∈ fleet, truckFits needed start tr = false := by
  induction fleet with
  | nil => simp
  | cons tr rest ih =>
    simp only [findTruckIdx] at h
    by_cases hfit : truckFits needed start tr
    · rw [if_pos hfit] at h; simp at h
    · rw [if_neg hfit] at h
      intro x hx
      rcases List.mem_cons.mp hx with rfl | hx'
      · simpa using hfit
      · cases hrec : findTruckIdx needed start rest with
        | none => exact ih hrec x hx'
        | some k' => rw [hrec] at h; simp at h

theorem stateAt_zero (trips : List Trip) : stateAt trips 0 = schedInit := rfl

theorem stateAt_succ (trips : List Trip) (i : ℕ) (h : i < trips.length) :
    stateAt trips (i + 1) = scheduleStep (stateAt trips i) (trips.getD i default) := by
  simp only [stateAt]
  rw [List.take_succ, List.foldl_append, List.getElem?_eq_getElem h]
  simp only [Option.toList_some, List.foldl_cons, List.foldl_nil]
  rw [List.getD_eq_getElem _ _ h]

theorem foldl_clock (l : List Trip) :
    ∀ st : SchedState, (l.foldl scheduleStep st).clock
      = st.clock + l.length * TIME_LOADING := by
  induction l with
  | nil => intro st; simp
  | cons t rest ih =>
    intro st
    rw [List.foldl_cons, ih]
    have hstep : (scheduleStep st t).clock = st.clock + TIME_LOADING := by
      simp only [scheduleStep]
      cases h : findTruckIdx t.truck_type st.clock st.fleet <;> simp
    rw [hstep]
    simp only [List.length_cons]
    push_cast
    ring

theorem stateAt_clock (trips : List Trip) (i : ℕ) (h : i ≤ trips.length) :
    (stateAt trips i).clock = startT i := by
  simp only [stateAt, startT]
  rw [foldl_clock]
  simp only [schedInit]
  rw [List.length_take, min_eq_left h]

theorem scheduleStep_sched (st : SchedState) (t : Trip) :
    ∃ e : SchedEntry, (scheduleStep st t).sched = st.sched ++ [e]
      ∧ e.start_time = format_time st.clock := by
  simp only [scheduleStep]
  cases h : findTruckIdx t.truck_type st.clock st.fleet <;> exact ⟨_, rfl, rfl⟩

theorem stateAt_sched_length (trips : List Trip) :
    ∀ i, i ≤ trips.length → (stateAt trips i).sched.length = i := by
  intro i
  induction i with
  | zero => intro _; rfl
  | succ m ih =>
    intro h
    rw [stateAt_succ trips m (by omega)]
    rcases scheduleStep_sched (stateAt trips m) (trips.getD m default)
      with ⟨e, he, _⟩
    rw [he, List.length_append, ih (by omega)]
    rfl

theorem stateAt_sched_prefix (trips : List Trip) :
    ∀ i m, i < m → m ≤ trips.length →
      (stateAt trips m).sched.getD i default
        = (stateAt trips (i + 1)).sched.getD i default := by
  intro i m
  induction m with
  | zero => intro h _; omega
  | succ n ih =>
    intro him hm
    by_cases hin : i + 1 = n + 1
    · rw [hin]
    · have hlt : i < n := by omega
      rw [stateAt_succ trips n (by omega)]
      rcases scheduleStep_sched (stateAt trips n) (trips.getD n default)
        with ⟨e, he, _⟩
      rw [he, List.getD_append]
      · exact ih hlt (by omega)
      · rw [stateAt_sched_length trips n (by omega)]
        omega

theorem schedule_fleet_eq_stateAt (trips : List Trip) :
    schedule_fleet trips = (stateAt trips trips.length).sched := by
  simp only [schedule_fleet, stateAt, List.take_length]

theorem schedule_fleet_getD (trips : List Trip) (i : ℕ) (h : i < trips.length) :
    (schedule_fleet trips).getD i default
      = (stateAt trips (i + 1)).sched.getD i default := by
  rw [schedule_fleet_eq_stateAt]
  by_cases he : i + 1 = trips.length
  · rw [he]
  · exact stateAt_sched_prefix trips i trips.length h le_rfl

theorem truckFits_iff (needed : TruckType) (start : ℚ) (tr : FleetTruck) :
    truckFits needed start tr = true
      ↔ (tr.ttype = needed ∧ tr.available_at ≤ start) := by
  simp [truckFits]

theorem scheduleStep_reuse {st : SchedState} {t : Trip} {k : ℕ}
    (h : findTruckIdx t.truck_type st.clock st.fleet = some k) :
    scheduleStep st t =
      { sched := st.sched ++
          [{ trip := t, truck_id := (st.fleet.getD k default).id,
             start_time := format_time st.clock,
             end_time := format_time (st.clock + t.duration),
             duration_h := round2 t.duration }]
        fleet := st.fleet.set k
          { st.fleet.getD k default with available_at := st.clock + t.duration }
        clock := st.clock + TIME_LOADING
        counter := st.counter } := by
  simp only [scheduleStep]
  rw [h]

theorem scheduleStep_new {st : SchedState} {t : Trip}
    (h : findTruckIdx t.truck_type st.clock st.fleet = none) :
    scheduleStep st t =
      { sched := st.sched ++
          [{ trip := t, truck_id := st.counter,
             start_time := format_time st.clock,
             end_time := format_time (st.clock + t.duration),
             duration_h := round2 t.duration }]
        fleet := st.fleet ++
          [{ id := st.counter, ttype := t.truck_type,
             available_at := st.clock + t.duration }]
        clock := st.clock + TIME_LOADING
        counter := st.counter + 1 } := by
  simp only [scheduleStep]
  rw [h]

theorem schedule_entry_eq (trips : List Trip) (i : ℕ) (h : i < trips.length)
    (e : SchedEntry)
    (hstep : (scheduleStep (stateAt trips i) (trips.getD i default)).sched
      = (stateAt trips i).sched ++ [e]) :
    (schedule_fleet trips).getD i default = e := by
  rw [schedule_fleet_getD trips i h, stateAt_succ trips i h, hstep,
    List.getD_append_right]
  · rw [stateAt_sched_length trips i h.le]
    simp
  · rw [stateAt_sched_length trips i h.le]

/-- There is an idle truck of the needed class in the fleet. -/
def HasFit (fleet : List FleetTruck) (needed : TruckType) (s : ℚ) : Prop :=
  ∃ tr ∈ fleet, tr.ttype = needed ∧ tr.available_at ≤ s

/-- `k` is the first fleet index holding an idle truck of the needed
class. -/
def FirstFit (fleet : List FleetTruck) (needed : TruckType) (s : ℚ)
    (k : ℕ) : Prop :=
  k < fleet.length
  ∧ ((fleet.getD k default).ttype = needed
     ∧ (fleet.getD k default).available_at ≤ s)
  ∧ ∀ m < k, ¬ ((fleet.getD m default).ttype = needed
     ∧ (fleet.getD m default).available_at ≤ s)

-- --- CLAIM C3 ---

/-- C3: the `i`-th trip (0-based) is scheduled to start at
`START_HOUR + i * TIME_LOADING` (the plant-ready clock advances by the
fixed loading time after every trip, whichever truck was used); the trip
reuses the first truck in fleet-list order whose class matches and whose
free-at time is ≤ the start time, updating that truck's free-at time to
`start + duration`; when no such truck exists a new truck of that class
with the next sequential id is created with free-at `start + duration`. -/
theorem schedule_fleet_start_and_first_fit (trips : List Trip) (i : ℕ)
    (h : i < trips.length) :
    (stateAt trips i).clock = startT i
    ∧ ((schedule_fleet trips).getD i default).start_time
        = format_time (startT i)
    ∧ (HasFit (stateAt trips i).fleet (trips.getD i default).truck_type
          (startT i) →
        ∃ k, FirstFit (stateAt trips i).fleet
            (trips.getD i default).truck_type (startT i) k
          ∧ ((schedule_fleet trips).getD i default).truck_id
              = ((stateAt trips i).fleet.getD k default).id
          ∧ (stateAt trips (i+1)).fleet
              = (stateAt trips i).fleet.set k
                  { (stateAt trips i).fleet.getD k default with
                    available_at := startT i + (trips.getD i default).duration }
          ∧ (stateAt trips (i+1)).counter = (stateAt trips i).counter)
    ∧ (¬ HasFit (stateAt trips i).fleet (trips.getD i default).truck_type
          (startT i) →
        ((schedule_fleet trips).getD i default).truck_id
            = (stateAt trips i).counter
        ∧ (stateAt trips (i+1)).fleet
            = (stateAt trips i).fleet ++
              [{ id := (stateAt trips i).counter,
                 ttype := (trips.getD i default).truck_type,
                 available_at := startT i + (trips.getD i default).duration }]
        ∧ (stateAt trips (i+1)).counter = (stateAt trips i).counter + 1) := by
  have hclock : (stateAt trips i).clock = startT i := stateAt_clock trips i h.le
  refine ⟨hclock, ?_, ?_, ?_⟩
  · rcases scheduleStep_sched (stateAt trips i) (trips.getD i default)
      with ⟨e, he, hst⟩
    rw [schedule_entry_eq trips i h e he, hst, hclock]
  · intro hfit
    cases hfind : findTruckIdx (trips.getD i default).truck_type
        (stateAt trips i).clock (stateAt trips i).fleet with
    | none =>
      exfalso
      rcases hfit with ⟨tr, htr, hty, hav⟩
      have hfalse := findTruckIdx_none hfind tr htr
      have htrue : truckFits (trips.getD i default).truck_type
          (stateAt trips i).clock tr = true :=
        (truckFits_iff _ _ _).mpr ⟨hty, by rw [hclock]; exact hav⟩
      rw [htrue] at hfalse
      exact Bool.noConfusion hfalse
    | some k =>
      rcases findTruckIdx_some hfind with ⟨hk, hfitk, hmin⟩
      rw [truckFits_iff] at hfitk
      have hE : (schedule_fleet trips).getD i default
          = { trip := trips.getD i default,
              truck_id := ((stateAt trips i).fleet.getD k default).id,
              start_time := format_time (stateAt trips i).clock,
              end_time := format_time
                ((stateAt trips i).clock + (trips.getD i default).duration),
              duration_h := round2 (trips.getD i default).duration } :=
        schedule_entry_eq trips i h _ (by rw [scheduleStep_reuse hfind])
      refine ⟨k, ⟨hk, by rw [← hclock]; exact hfitk, ?_⟩, ?_, ?_, ?_⟩
      · intro m hm hc
        have hfalse := hmin m hm
        rw [← hclock] at hc
        have htrue : truckFits (trips.getD i default).truck_type
            (stateAt trips i).clock ((stateAt trips i).fleet.getD m default)
            = true := (truckFits_iff _ _ _).mpr hc
        rw [htrue] at hfalse
        exact Bool.noConfusion hfalse
      · rw [hE]
      · rw [stateAt_succ trips i h, scheduleStep_reuse hfind, hclock]
      · rw [stateAt_succ trips i h, scheduleStep_reuse hfind]
  · intro hnofit
    cases hfind : findTruckIdx (trips.getD i default).truck_type
        (stateAt trips i).clock (stateAt trips i).fleet with
    | some k =>
      exfalso
      rcases findTruckIdx_some hfind with ⟨hk, hfitk, _⟩
      rw [truckFits_iff] at hfitk
      refine hnofit ⟨(stateAt trips i).fleet.getD k default, ?_, hfitk.1,
        hclock ▸ hfitk.2⟩
      rw [List.getD_eq_getElem _ _ hk]
      exact List.getElem_mem hk
    | none =>
      have hE : (schedule_fleet trips).getD i default
          = { trip := trips.getD i default,
              truck_id := (stateAt trips i).counter,
              start_time := format_time (stateAt trips i).clock,
              end_time := format_time
                ((stateAt trips i).clock + (trips.getD i default).duration),
              duration_h := round2 (trips.getD i default).duration } :=
        schedule_entry_eq trips i h _ (by rw [scheduleStep_new hfind])
      refine ⟨?_, ?_, ?_⟩
      · rw [hE]
      · rw [stateAt_succ trips i h, scheduleStep_new hfind, hclock]
      · rw [stateAt_succ trips i h, scheduleStep_new hfind]

def wDT : Trip :=
  { truck_type := TruckType.Medium_Truck, stops := [1], volume := 7,
    duration := 1, concrete_age_at_finish := some 1,
    route_type := RouteType.Direct }

theorem schedule_fleet_start_and_first_fit_witness :
    (0 < ([wDT] : List Trip).length)
    ∧ ((stateAt [wDT] 0).clock = startT 0
      ∧ ((schedule_fleet [wDT]).getD 0 default).start_time
          = format_time (startT 0)
      ∧ (HasFit (stateAt [wDT] 0).fleet
            (([wDT] : List Trip).getD 0 default).truck_type (startT 0) →
          ∃ k, FirstFit (stateAt [wDT] 0).fleet
              (([wDT] : List Trip).getD 0 default).truck_type (startT 0) k
            ∧ ((schedule_fleet [wDT]).getD 0 default).truck_id
                = ((stateAt [wDT] 0).fleet.getD k default).id
            ∧ (stateAt [wDT] (0+1)).fleet
                = (stateAt [wDT] 0).fleet.set k
                    { (stateAt [wDT] 0).fleet.getD k default with
                      available_at :=
                        startT 0 + (([wDT] : List Trip).getD 0 default).duration }
            ∧ (stateAt [wDT] (0+1)).counter = (stateAt [wDT] 0).counter)
      ∧ (¬ HasFit (stateAt [wDT] 0).fleet
            (([wDT] : List Trip).getD 0 default).truck_type (startT 0) →
          ((schedule_fleet [wDT]).getD 0 default).truck_id
              = (stateAt [wDT] 0).counter
          ∧ (stateAt [wDT] (0+1)).fleet
              = (stateAt [wDT] 0).fleet ++
                [{ id := (stateAt [wDT] 0).counter,
                   ttype := (([wDT] : List Trip).getD 0 default).truck_type,
                   available_at :=
                     startT 0 + (([wDT] : List Trip).getD 0 default).duration }]
          ∧ (stateAt [wDT] (0+1)).counter = (stateAt [wDT] 0).counter + 1)) :=
  ⟨by simp, schedule_fleet_start_and_first_fit [wDT] 0 (by simp)⟩

-- --- HELPER LEMMAS: fleet minimality ---

/-- Truck id assigned to the `i`-th trip in the computed schedule. -/
def assignedId (trips : List Trip) (i : ℕ) : ℕ :=
  ((schedule_fleet trips).getD i default).truck_id

/-- Indices of the trips requiring capacity class `c`. -/
def classIdx (trips : List Trip) (c : TruckType) : Finset ℕ :=
  (Finset.range trips.length).filter
    (fun i => (trips.getD i default).truck_type = c)

/-- The scheduled half-open execution intervals of trips `i` and `j`
intersect. -/
def Overlap (trips : List Trip) (i j : ℕ) : Prop :=
  startT i < endT trips j ∧ startT j < endT trips i

/-- `f` is a truck assignment for class `c` in which no truck serves two
time-overlapping trips. -/
def ValidAssign (trips : List Trip) (c : TruckType) (f : ℕ → ℕ) : Prop :=
  ∀ i ∈ classIdx trips c, ∀ j ∈ classIdx trips c,
    i ≠ j → Overlap trips i j → f i ≠ f j

/-- Number of class-`c` trucks in the fleet after `m` trips. -/
def countCAt (trips : List Trip) (c : TruckType) (m : ℕ) : ℕ :=
  ((stateAt trips m).fleet.filter (fun tr => tr.ttype = c)).length

/-- Number of class-`c` trucks created by a full `schedule_fleet` run. -/
def fleetCount (trips : List Trip) (c : TruckType) : ℕ :=
  countCAt trips c trips.length

theorem startT_mono {i j : ℕ} (h : i ≤ j) : startT i ≤ startT j := by
  simp only [startT, TIME_LOADING]
  have : (i:ℚ) ≤ j := by exact_mod_cast h
  nlinarith

theorem startT_strict {i j : ℕ} (h : i < j) : startT i < startT j := by
  simp only [startT, TIME_LOADING]
  have : (i:ℚ) < j := by exact_mod_cast h
  nlinarith

theorem filter_length_set (c : TruckType) :
    ∀ (l : List FleetTruck) (k : ℕ) (tr' : FleetTruck),
      k < l.length → tr'.ttype = (l.getD k default).ttype →
      ((l.set k tr').filter (fun tr => tr.ttype = c)).length
        = (l.filter (fun tr => tr.ttype = c)).length := by
  intro l
  induction l with
  | nil => intro k tr' hk _; simp at hk
  | cons x xs ih =>
    intro k tr' hk hty
    cases k with
    | zero =>
      simp only [List.set_cons_zero]
      simp only [List.getD_cons_zero] at hty
      by_cases hx : x.ttype = c
      · simp [List.filter_cons, hty, hx]
      · simp [List.filter_cons, hty, hx]
    | succ k' =>
      simp only [List.set_cons_succ]
      simp only [List.getD_cons_succ] at hty
      have hk' : k' < xs.length := by simpa using Nat.lt_of_succ_lt_succ hk
      by_cases hx : x.ttype = c
      · simp [List.filter_cons, hx, ih k' tr' hk' hty]
      · simp [List.filter_cons, hx, ih k' tr' hk' hty]

theorem getD_set_ne (l : List FleetTruck) (k p : ℕ) (tr' : FleetTruck)
    (h : p ≠ k) : (l.set k tr').getD p default = l.getD p default := by
  simp only [List.getD]
  rw [List.get?_set_ne tr' l (Ne.symm h)]

theorem getD_set_eq (l : List FleetTruck) (k : ℕ) (tr' : FleetTruck)
    (h : k < l.length) : (l.set k tr').getD k default = tr' := by
  simp only [List.getD]
  rw [List.get?_set_eq_of_lt tr' h]
  rfl

theorem step_reuse_facts (trips : List Trip) (i : ℕ) (h : i < trips.length)
    {k : ℕ}
    (hfind : findTruckIdx (trips.getD i default).truck_type
      (stateAt trips i).clock (stateAt trips i).fleet = some k) :
    assignedId trips i = ((stateAt trips i).fleet.getD k default).id
    ∧ (stateAt trips (i+1)).fleet = (stateAt trips i).fleet.set k
        { (stateAt trips i).fleet.getD k default with
          available_at := (stateAt trips i).clock
            + (trips.getD i default).duration }
    ∧ (stateAt trips (i+1)).counter = (stateAt trips i).counter := by
  refine ⟨?_, ?_, ?_⟩
  · unfold assignedId
    rw [schedule_entry_eq trips i h _ (by rw [scheduleStep_reuse hfind])]
  · rw [stateAt_succ trips i h, scheduleStep_reuse hfind]
  · rw [stateAt_succ trips i h, scheduleStep_reuse hfind]

theorem step_new_facts (trips : List Trip) (i : ℕ) (h : i < trips.length)
    (hfind : findTruckIdx (trips.getD i default).truck_type
      (stateAt trips i).clock (stateAt trips i).fleet = none) :
    assignedId trips i = (stateAt trips i).counter
    ∧ (stateAt trips (i+1)).fleet = (stateAt trips i).fleet ++
        [{ id := (stateAt trips i).counter,
           ttype := (trips.getD i default).truck_type,
           available_at := (stateAt trips i).clock
             + (trips.getD i default).duration }]
    ∧ (stateAt trips (i+1)).counter = (stateAt trips i).counter + 1 := by
  refine ⟨?_, ?_, ?_⟩
  · unfold assignedId
    rw [schedule_entry_eq trips i h _ (by rw [scheduleStep_new hfind])]
  · rw [stateAt_succ trips i h, scheduleStep_new hfind]
  · rw [stateAt_succ trips i h, scheduleStep_new hfind]

theorem endT_eq_clock_add (trips : List Trip) (i : ℕ) (h : i < trips.length) :
    endT trips i = (stateAt trips i).clock + (trips.getD i default).duration := by
  rw [endT, stateAt_clock trips i h.le]

/-- Run invariant of `schedule_fleet` after `m` trips: the counter is one
past the fleet size, truck ids are the positions shifted by one, every
truck carries the end time of a last-assigned trip of its class, every
processed trip ends no later than its truck's free-at time, every
processed trip is assigned to a truck of its class, and two trips on the
same truck never overlap. -/
def SchedInv (trips : List Trip) (m : ℕ) : Prop :=
  (stateAt trips m).counter = (stateAt trips m).fleet.length + 1
  ∧ (∀ p, p < (stateAt trips m).fleet.length →
      ((stateAt trips m).fleet.getD p default).id = p + 1)
  ∧ (∀ p, p < (stateAt trips m).fleet.length →
      ∃ j, j < m ∧ (trips.getD j default).truck_type
            = ((stateAt trips m).fleet.getD p default).ttype
        ∧ assignedId trips j = ((stateAt trips m).fleet.getD p default).id
        ∧ endT trips j = ((stateAt trips m).fleet.getD p default).available_at)
  ∧ (∀ j, j < m → ∀ p, p < (stateAt trips m).fleet.length →
      assignedId trips j = ((stateAt trips m).fleet.getD p default).id →
      endT trips j ≤ ((stateAt trips m).fleet.getD p default).available_at)
  ∧ (∀ j, j < m → ∃ p, p < (stateAt trips m).fleet.length ∧
      assignedId trips j = ((stateAt trips m).fleet.getD p default).id ∧
      ((stateAt trips m).fleet.getD p default).ttype
        = (trips.getD j default).truck_type)
  ∧ (∀ i j, i < j → j < m → assignedId trips i = assignedId trips j →
      endT trips i ≤ startT j)

theorem schedInv_holds (trips : List Trip)
    (hpos : ∀ t ∈ trips, 0 < t.duration) :
    ∀ m, m ≤ trips.length → SchedInv trips m := by
  intro m
  induction m with
  | zero =>
    intro _
    have hF : (stateAt trips 0).fleet = [] := rfl
    refine ⟨rfl, ?_, ?_, ?_, ?_, ?_⟩
    · intro p hp
      rw [hF] at hp
      simp at hp
    · intro p hp
      rw [hF] at hp
      simp at hp
    · intro j hj
      exact absurd hj (Nat.not_lt_zero j)
    · intro j hj
      exact absurd hj (Nat.not_lt_zero j)
    · intro i j _ hj _
      exact absurd hj (Nat.not_lt_zero j)
  | succ m ih =>
    intro hm1
    have hm : m < trips.length := hm1
    obtain ⟨h1, h2, h3, h4, h5, h6⟩ := ih hm.le
    have hdur : 0 < (trips.getD m default).duration := by
      apply hpos
      rw [List.getD_eq_getElem _ _ hm]
      exact List.getElem_mem hm
    have hclock : (stateAt trips m).clock = startT m :=
      stateAt_clock trips m hm.le
    have hendm : endT trips m
        = (stateAt trips m).clock + (trips.getD m default).duration :=
      endT_eq_clock_add trips m hm
    cases hfind : findTruckIdx (trips.getD m default).truck_type
        (stateAt trips m).clock (stateAt trips m).fleet with
    | some k =>
      obtain ⟨hid, hfleet, hcnt⟩ := step_reuse_facts trips m hm hfind
      obtain ⟨hk, hfitk, hmin⟩ := findTruckIdx_some hfind
      rw [truckFits_iff] at hfitk
      obtain ⟨hkty, hkav⟩ := hfitk
      have hlen' : (stateAt trips (m+1)).fleet.length
          = (stateAt trips m).fleet.length := by
        rw [hfleet]
        exact List.length_set _ _ _
      have hget' : ∀ p, p ≠ k → (stateAt trips (m+1)).fleet.getD p default
          = (stateAt trips m).fleet.getD p default := by
        intro p hp
        rw [hfleet]
        exact getD_set_ne _ _ _ _ hp
      have hgetk : (stateAt trips (m+1)).fleet.getD k default
          = { (stateAt trips m).fleet.getD k default with
              available_at := (stateAt trips m).clock
                + (trips.getD m default).duration } := by
        rw [hfleet]
        exact getD_set_eq _ _ _ hk
      refine ⟨?_, ?_, ?_, ?_, ?_, ?_⟩
      · rw [hcnt, h1, hlen']
      · intro p hp
        rw [hlen'] at hp
        by_cases hpk : p = k
        · subst hpk
          rw [hgetk]
          exact h2 p hp
        · rw [hget' p hpk]
          exact h2 p hp
      · intro p hp
        rw [hlen'] at hp
        by_cases hpk : p = k
        · subst hpk
          refine ⟨m, Nat.lt_succ_self m, ?_, ?_, ?_⟩
          · rw [hgetk]
            exact hkty.symm
          · rw [hgetk]
            exact hid
          · rw [hgetk]
            exact hendm
        · rcases h3 p hp with ⟨j, hj, hc, hi, he⟩
          refine ⟨j, hj.trans (Nat.lt_succ_self m), ?_, ?_, ?_⟩
          · rw [hget' p hpk]
            exact hc
          · rw [hget' p hpk]
            exact hi
          · rw [hget' p hpk]
            exact he
      · intro j hj p hp hidp
        rw [hlen'] at hp
        by_cases hjm : j = m
        · subst hjm
          by_cases hpk : p = k
          · subst hpk
            rw [hgetk]
            exact le_of_eq hendm
          · rw [hget' p hpk] at hidp
            rw [hid, h2 k hk] at hidp
            rw [h2 p hp] at hidp
            omega
        · have hj' : j < m := by omega
          by_cases hpk : p = k
          · subst hpk
            rw [hgetk] at hidp ⊢
            have hold : endT trips j
                ≤ ((stateAt trips m).fleet.getD p default).available_at :=
              h4 j hj' p hk hidp
            have hstep2 : ((stateAt trips m).fleet.getD p default).available_at
                ≤ (stateAt trips m).clock + (trips.getD m default).duration :=
              le_trans hkav (by linarith)
            exact le_trans hold hstep2
          · rw [hget' p hpk] at hidp ⊢
            exact h4 j hj' p hp hidp
      · intro j hj
        by_cases hjm : j = m
        · subst hjm
          refine ⟨k, ?_, ?_, ?_⟩
          · rw [hlen']
            exact hk
          · rw [hgetk]
            exact hid
          · rw [hgetk]
            exact hkty
        · have hj' : j < m := by omega
          rcases h5 j hj' with ⟨p, hp, hi, ht⟩
          by_cases hpk : p = k
          · subst hpk
            refine ⟨p, ?_, ?_, ?_⟩
            · rw [hlen']
              exact hp
            · rw [hgetk]
              exact hi
            · rw [hgetk]
              exact ht
          · refine ⟨p, ?_, ?_, ?_⟩
            · rw [hlen']
              exact hp
            · rw [hget' p hpk]
              exact hi
            · rw [hget' p hpk]
              exact ht
      · intro i j hij hj hids
        by_cases hjm : j = m
        · have hi' : i < m := by omega
          rcases h5 i hi' with ⟨p, hp, hip, _⟩
          have hidm := hid
          rw [h2 k hk] at hidm
          have hipn := hip
          rw [h2 p hp] at hipn
          have hpk : p = k := by
            rw [hjm] at hids
            rw [hipn, hidm] at hids
            omega
          rw [hpk] at hip
          have hle := h4 i hi' k hk hip
          rw [hjm, ← hclock]
          exact le_trans hle hkav
        · exact h6 i j hij (by omega) hids
    | none =>
      obtain ⟨hid, hfleet, hcnt⟩ := step_new_facts trips m hm hfind
      have hnone := findTruckIdx_none hfind
      have hlen' : (stateAt trips (m+1)).fleet.length
          = (stateAt trips m).fleet.length + 1 := by
        rw [hfleet]
        simp
      have hget' : ∀ p, p < (stateAt trips m).fleet.length →
          (stateAt trips (m+1)).fleet.getD p default
          = (stateAt trips m).fleet.getD p default := by
        intro p hp
        rw [hfleet]
        exact List.getD_append _ _ _ _ hp
      have hgetl : (stateAt trips (m+1)).fleet.getD
          (stateAt trips m).fleet.length default
          = { id := (stateAt trips m).counter,
              ttype := (trips.getD m default).truck_type,
              available_at := (stateAt trips m).clock
                + (trips.getD m default).duration } := by
        rw [hfleet]
        rw [List.getD_append_right _ _ _ _ le_rfl]
        simp
      refine ⟨?_, ?_, ?_, ?_, ?_, ?_⟩
      · rw [hcnt, h1, hlen']
      · intro p hp
        rw [hlen'] at hp
        by_cases hpl : p = (stateAt trips m).fleet.length
        · subst hpl
          rw [hgetl]
          exact h1
        · have hp' : p < (stateAt trips m).fleet.length := by omega
          rw [hget' p hp']
          exact h2 p hp'
      · intro p hp
        rw [hlen'] at hp
        by_cases hpl : p = (stateAt trips m).fleet.length
        · subst hpl
          refine ⟨m, Nat.lt_succ_self m, ?_, ?_, ?_⟩
          · rw [hgetl]
          · rw [hgetl]
            exact hid
          · rw [hgetl]
            exact hendm
        · have hp' : p < (stateAt trips m).fleet.length := by omega
          rcases h3 p hp' with ⟨j, hj, hc, hi, he⟩
          refine ⟨j, hj.trans (Nat.lt_succ_self m), ?_, ?_, ?_⟩
          · rw [hget' p hp']
            exact hc
          · rw [hget' p hp']
            exact hi
          · rw [hget' p hp']
            exact he
      · intro j hj p hp hidp
        rw [hlen'] at hp
        by_cases hjm : j = m
        · by_cases hpl : p = (stateAt trips m).fleet.length
          · rw [hpl, hgetl, hjm]
            exact le_of_eq hendm
          · have hp' : p < (stateAt trips m).fleet.length := by omega
            rw [hget' p hp'] at hidp
            rw [hjm, hid, h1] at hidp
            rw [h2 p hp'] at hidp
            omega
        · have hj' : j < m := by omega
          by_cases hpl : p = (stateAt trips m).fleet.length
          · subst hpl
            rw [hgetl] at hidp
            dsimp only at hidp
            rcases h5 j hj' with ⟨q, hq, hiq, _⟩
            rw [h2 q hq] at hiq
            rw [hiq, h1] at hidp
            omega
          · have hp' : p < (stateAt trips m).fleet.length := by omega
            rw [hget' p hp'] at hidp ⊢
            exact h4 j hj' p hp' hidp
      · intro j hj
        by_cases hjm : j = m
        · refine ⟨(stateAt trips m).fleet.length, ?_, ?_, ?_⟩
          · omega
          · rw [hjm, hgetl]
            exact hid
          · rw [hjm, hgetl]
        · have hj' : j < m := by omega
          rcases h5 j hj' with ⟨p, hp, hi, ht⟩
          refine ⟨p, ?_, ?_, ?_⟩
          · omega
          · rw [hget' p hp]
            exact hi
          · rw [hget' p hp]
            exact ht
      · intro i j hij hj hids
        by_cases hjm : j = m
        · exfalso
          have hi' : i < m := by omega
          rcases h5 i hi' with ⟨q, hq, hiq, _⟩
          rw [h2 q hq] at hiq
          rw [hjm] at hids
          rw [hiq, hid, h1] at hids
          omega
        · exact h6 i j hij (by omega) hids

theorem filter_length_card (c : TruckType) :
    ∀ l : List FleetTruck,
      (l.filter (fun tr => tr.ttype = c)).length
        = ((Finset.range l.length).filter
            (fun i => (l.getD i default).ttype = c)).card := by
  intro l
  induction l with
  | nil => simp
  | cons x xs ih =>
    rw [List.length_cons, Finset.card_filter, Finset.sum_range_succ']
    simp only [List.getD_cons_succ, List.getD_cons_zero]
    rw [← Finset.card_filter, List.filter_cons]
    by_cases hx : x.ttype = c
    · rw [if_pos (by simpa using hx), if_pos hx, List.length_cons, ih]
    · rw [if_neg (by simpa using hx), if_neg hx, add_zero, ih]

theorem cliqueAt_holds (trips : List Trip)
    (hpos : ∀ t ∈ trips, 0 < t.duration) (c : TruckType) :
    ∀ m, m ≤ trips.length →
      ∃ C : Finset ℕ, C ⊆ classIdx trips c ∧ (∀ i ∈ C, i < m)
        ∧ C.card = countCAt trips c m
        ∧ ∃ pt : ℚ, ∀ i ∈ C, startT i ≤ pt ∧ pt < endT trips i := by
  intro m
  induction m with
  | zero =>
    intro _
    refine ⟨∅, by simp, by simp, ?_, 0, by simp⟩
    simp [countCAt, stateAt_zero, schedInit]
  | succ m ih =>
    intro hm1
    have hm : m < trips.length := hm1
    rcases ih hm.le with ⟨C, hsub, hlt, hcard, pt, hpt⟩
    obtain ⟨h1, h2, h3, h4, h5, h6⟩ := schedInv_holds trips hpos m hm.le
    have hclock := stateAt_clock trips m hm.le
    have hdur : 0 < (trips.getD m default).duration := by
      apply hpos
      rw [List.getD_eq_getElem _ _ hm]
      exact List.getElem_mem hm
    cases hfind : findTruckIdx (trips.getD m default).truck_type
        (stateAt trips m).clock (stateAt trips m).fleet with
    | some k =>
      obtain ⟨hid, hfleet, hcnt⟩ := step_reuse_facts trips m hm hfind
      obtain ⟨hk, _, _⟩ := findTruckIdx_some hfind
      have hcount : countCAt trips c (m+1) = countCAt trips c m := by
        unfold countCAt
        rw [hfleet]
        exact filter_length_set c _ k _ hk rfl
      exact ⟨C, hsub, fun i hi => (hlt i hi).trans (Nat.lt_succ_self m),
        by rw [hcount]; exact hcard, pt, hpt⟩
    | none =>
      obtain ⟨hid, hfleet, hcnt⟩ := step_new_facts trips m hm hfind
      have hnone := findTruckIdx_none hfind
      by_cases hcc : (trips.getD m default).truck_type = c
      · have hcount : countCAt trips c (m+1) = countCAt trips c m + 1 := by
          unfold countCAt
          rw [hfleet, List.filter_append, List.length_append]
          have hone : (List.filter (fun tr => tr.ttype = c)
              ([{ id := (stateAt trips m).counter,
                  ttype := (trips.getD m default).truck_type,
                  available_at := (stateAt trips m).clock
                    + (trips.getD m default).duration }]
                : List FleetTruck)).length = 1 := by
            rw [List.filter_cons, if_pos (by simpa using hcc)]
            rfl
          rw [hone]
        have hsel : ∀ p, p < (stateAt trips m).fleet.length → ∃ j, j < m
            ∧ (trips.getD j default).truck_type
                = ((stateAt trips m).fleet.getD p default).ttype
            ∧ assignedId trips j
                = ((stateAt trips m).fleet.getD p default).id
            ∧ endT trips j
                = ((stateAt trips m).fleet.getD p default).available_at := by
          intro p hp
          rcases h3 p hp with ⟨j, hj, ha, hb, hc'⟩
          exact ⟨j, hj, ha, hb, hc'⟩
        let F := (stateAt trips m).fleet
        let P : Finset ℕ := (Finset.range F.length).filter
          (fun p => (F.getD p default).ttype = c)
        let jOf : ℕ → ℕ := fun p =>
          if h : p < F.length then Classical.choose (hsel p h) else 0
        have hjOf : ∀ p, p < F.length → jOf p < m
            ∧ (trips.getD (jOf p) default).truck_type = (F.getD p default).ttype
            ∧ assignedId trips (jOf p) = (F.getD p default).id
            ∧ endT trips (jOf p) = (F.getD p default).available_at := by
          intro p hp
          have hspec := Classical.choose_spec (hsel p hp)
          have hred : jOf p = Classical.choose (hsel p hp) := dif_pos hp
          rw [hred]
          exact hspec
        have hPmem : ∀ p ∈ P, p < F.length ∧ (F.getD p default).ttype = c := by
          intro p hp
          rcases Finset.mem_filter.mp hp with ⟨hr, hc2⟩
          exact ⟨Finset.mem_range.mp hr, hc2⟩
        have hPcard : P.card = countCAt trips c m :=
          (filter_length_card c F).symm
        refine ⟨insert m (P.image jOf), ?_, ?_, ?_, startT m, ?_⟩
        · intro i hi
          rcases Finset.mem_insert.mp hi with rfl | hi'
          · exact Finset.mem_filter.mpr ⟨Finset.mem_range.mpr hm, hcc⟩
          · rcases Finset.mem_image.mp hi' with ⟨p, hp, rfl⟩
            rcases hPmem p hp with ⟨hplen, hpty⟩
            rcases hjOf p hplen with ⟨hjm, hjty, _, _⟩
            refine Finset.mem_filter.mpr ⟨Finset.mem_range.mpr ?_, ?_⟩
            · exact lt_trans hjm hm
            · rw [hjty, hpty]
        · intro i hi
          rcases Finset.mem_insert.mp hi with rfl | hi'
          · exact Nat.lt_succ_self i
          · rcases Finset.mem_image.mp hi' with ⟨p, hp, rfl⟩
            rcases hPmem p hp with ⟨hplen, _⟩
            exact lt_trans (hjOf p hplen).1 (Nat.lt_succ_self m)
        · have hmnot : m ∉ P.image jOf := by
            intro hmem
            rcases Finset.mem_image.mp hmem with ⟨p, hp, hpe⟩
            rcases hPmem p hp with ⟨hplen, _⟩
            have := (hjOf p hplen).1
            omega
          rw [Finset.card_insert_of_not_mem hmnot]
          have hinj : Set.InjOn jOf P := by
            intro p hp p' hp' he
            rcases hPmem p (by simpa using hp) with ⟨hplen, _⟩
            rcases hPmem p' (by simpa using hp') with ⟨hplen', _⟩
            have e1 := (hjOf p hplen).2.2.1
            have e2 := (hjOf p' hplen').2.2.1
            rw [h2 p hplen] at e1
            rw [h2 p' hplen'] at e2
            rw [he, e2] at e1
            omega
          rw [Finset.card_image_of_injOn hinj, hPcard, hcount]
        · intro i hi
          rcases Finset.mem_insert.mp hi with rfl | hi'
          · constructor
            · exact le_rfl
            · show startT i < endT trips i
              simp only [endT]
              linarith
          · rcases Finset.mem_image.mp hi' with ⟨p, hp, rfl⟩
            rcases hPmem p hp with ⟨hplen, hpty⟩
            rcases hjOf p hplen with ⟨hjm, _, _, hend⟩
            constructor
            · exact startT_mono (le_of_lt hjm)
            · rw [hend]
              have hmem : F.getD p default ∈ F := by
                rw [List.getD_eq_getElem _ _ hplen]
                exact List.getElem_mem hplen
              have hnofit := hnone _ hmem
              have hprop : ¬ ((F.getD p default).ttype
                  = (trips.getD m default).truck_type
                  ∧ (F.getD p default).available_at
                      ≤ (stateAt trips m).clock) := by
                intro hcon2
                rw [(truckFits_iff _ _ _).mpr hcon2] at hnofit
                exact Bool.noConfusion hnofit
              by_contra hcon
              push_neg at hcon
              refine hprop ⟨by rw [hpty, hcc], ?_⟩
              rw [hclock]
              exact hcon
      · have hcount : countCAt trips c (m+1) = countCAt trips c m := by
          unfold countCAt
          rw [hfleet, List.filter_append, List.length_append]
          have hzero : (List.filter (fun tr => tr.ttype = c)
              ([{ id := (stateAt trips m).counter,
                  ttype := (trips.getD m default).truck_type,
                  available_at := (stateAt trips m).clock
                    + (trips.getD m default).duration }]
                : List FleetTruck)).length = 0 := by
            rw [List.filter_cons, if_neg (by simpa using hcc)]
            rfl
          rw [hzero]
          omega
        exact ⟨C, hsub, fun i hi => (hlt i hi).trans (Nat.lt_succ_self m),
          by rw [hcount]; exact hcard, pt, hpt⟩

theorem classIdx_mem {trips : List Trip} {c : TruckType} {i : ℕ}
    (h : i ∈ classIdx trips c) :
    i < trips.length ∧ (trips.getD i default).truck_type = c := by
  rcases Finset.mem_filter.mp h with ⟨hr, hc⟩
  exact ⟨Finset.mem_range.mp hr, hc⟩

-- --- CLAIM C4 ---

/-- C4: at the end of any `schedule_fleet` run (on trips of positive
duration, as all generated trips are), for each capacity class the number
of trucks created is exactly the minimum number of trucks of that class
able to execute the computed schedule: the run's own truck assignment is
conflict-free and uses exactly `fleetCount` trucks of the class, and every
assignment in which no truck serves two trips with overlapping
`[start, end)` intervals uses at least `fleetCount` trucks. -/
theorem fleet_size_minimal (trips : List Trip)
    (hpos : ∀ t ∈ trips, 0 < t.duration) (c : TruckType) :
    (ValidAssign trips c (assignedId trips)
      ∧ (Finset.image (assignedId trips) (classIdx trips c)).card
          = fleetCount trips c)
    ∧ ∀ f : ℕ → ℕ, ValidAssign trips c f →
        fleetCount trips c ≤ (Finset.image f (classIdx trips c)).card := by
  obtain ⟨h1, h2, h3, h4, h5, h6⟩ := schedInv_holds trips hpos trips.length le_rfl
  refine ⟨⟨?_, ?_⟩, ?_⟩
  · -- the run's own assignment is valid
    intro i hi j hj hne hov heq
    rcases classIdx_mem hi with ⟨hilen, _⟩
    rcases classIdx_mem hj with ⟨hjlen, _⟩
    rcases Nat.lt_or_ge i j with hij | hij
    · have := h6 i j hij hjlen heq
      exact absurd hov.2 (not_lt.mpr this)
    · have hji : j < i := lt_of_le_of_ne hij (fun he => hne he.symm)
      have := h6 j i hji hilen heq.symm
      exact absurd hov.1 (not_lt.mpr this)
  · -- it uses exactly `fleetCount` class-c trucks
    have himg : Finset.image (assignedId trips) (classIdx trips c)
        = (((stateAt trips trips.length).fleet.filter
            (fun tr => tr.ttype = c)).map FleetTruck.id).toFinset := by
      apply Finset.ext
      intro x
      constructor
      · intro hx
        rcases Finset.mem_image.mp hx with ⟨j, hj, rfl⟩
        rcases classIdx_mem hj with ⟨hjlen, hjty⟩
        rcases h5 j hjlen with ⟨p, hp, hip, hty⟩
        rw [List.mem_toFinset]
        refine List.mem_map.mpr
          ⟨(stateAt trips trips.length).fleet.getD p default, ?_, hip.symm⟩
        refine List.mem_filter.mpr ⟨?_, ?_⟩
        · rw [List.getD_eq_getElem _ _ hp]
          exact List.getElem_mem hp
        · have hty2 : ((stateAt trips trips.length).fleet.getD
              p default).ttype = c := by
            rw [hty, hjty]
          simpa using hty2
      · intro hx
        rw [List.mem_toFinset] at hx
        rcases List.mem_map.mp hx with ⟨tr, htr, rfl⟩
        rcases List.mem_filter.mp htr with ⟨htrF, htrc⟩
        rcases List.mem_iff_get.mp htrF with ⟨p, hpget⟩
        have hplen : (p : ℕ) < (stateAt trips trips.length).fleet.length := p.2
        have hpgetD : (stateAt trips trips.length).fleet.getD p default = tr := by
          rw [List.getD_eq_getElem _ _ hplen, ← hpget]
          simp [List.get_eq_getElem]
        rcases h3 p hplen with ⟨j, hjlen, hjty, hjid, _⟩
        refine Finset.mem_image.mpr ⟨j, ?_, ?_⟩
        · refine Finset.mem_filter.mpr ⟨Finset.mem_range.mpr hjlen, ?_⟩
          rw [hjty, hpgetD]
          simpa using htrc
        · rw [hjid, hpgetD]
    rw [himg]
    rw [List.toFinset_card_of_nodup]
    · simp [fleetCount, countCAt]
    · apply List.Nodup.sublist
        (List.Sublist.map FleetTruck.id
          (List.filter_sublist (stateAt trips trips.length).fleet))
      rw [List.nodup_iff_injective_get]
      intro a b hab
      have ha : ((stateAt trips trips.length).fleet.map FleetTruck.id).get a
          = ((stateAt trips trips.length).fleet.getD a default).id := by
        rw [List.get_map]
        congr 1
        rw [List.getD_eq_getElem _ _ (by simpa using a.2)]
        simp [List.get_eq_getElem]
      have hb : ((stateAt trips trips.length).fleet.map FleetTruck.id).get b
          = ((stateAt trips trips.length).fleet.getD b default).id := by
        rw [List.get_map]
        congr 1
        rw [List.getD_eq_getElem _ _ (by simpa using b.2)]
        simp [List.get_eq_getElem]
      have ha2 := h2 a (by simpa using a.2)
      have hb2 := h2 b (by simpa using b.2)
      rw [ha, hb, ha2, hb2] at hab
      exact Fin.ext (by omega)
  · -- every conflict-free assignment uses at least `fleetCount` trucks
    intro f hf
    rcases cliqueAt_holds trips hpos c trips.length le_rfl
      with ⟨C, hsub, _, hcard, pt, hpt⟩
    have hinj : Set.InjOn f C := by
      intro i hi j hj heq
      by_contra hne
      rcases hpt i (by simpa using hi) with ⟨hi1, hi2⟩
      rcases hpt j (by simpa using hj) with ⟨hj1, hj2⟩
      have hov : Overlap trips i j :=
        ⟨lt_of_le_of_lt hi1 hj2, lt_of_le_of_lt hj1 hi2⟩
      exact hf i (hsub (by simpa using hi)) j (hsub (by simpa using hj))
        hne hov heq
    calc fleetCount trips c = C.card := hcard.symm
      _ = (C.image f).card := (Finset.card_image_of_injOn hinj).symm
      _ ≤ (Finset.image f (classIdx trips c)).card :=
          Finset.card_le_card (Finset.image_subset_iff.mpr
            (fun x hx => Finset.mem_image_of_mem f (hsub hx)))

theorem fleet_size_minimal_witness :
    (∀ t ∈ ([wDT] : List Trip), 0 < t.duration)
    ∧ ((ValidAssign [wDT] TruckType.Medium_Truck (assignedId [wDT])
        ∧ (Finset.image (assignedId [wDT])
            (classIdx [wDT] TruckType.Medium_Truck)).card
            = fleetCount [wDT] TruckType.Medium_Truck)
      ∧ ∀ f : ℕ → ℕ, ValidAssign [wDT] TruckType.Medium_Truck f →
          fleetCount [wDT] TruckType.Medium_Truck
            ≤ (Finset.image f (classIdx [wDT] TruckType.Medium_Truck)).card) :=
  ⟨by
    intro t ht
    rcases List.mem_singleton.mp ht with rfl
    norm_num [wDT],
   fleet_size_minimal [wDT]
     (by
       intro t ht
       rcases List.mem_singleton.mp ht with rfl
       norm_num [wDT])
     TruckType.Medium_Truck⟩

-- --- HELPER LEMMAS: volume accounting ---

theorem optStops_cases (g : Geo) (a b : LeftoverItem) :
    optimize_stop_sequence g a b = (a, b)
    ∨ optimize_stop_sequence g a b = (b, a) := by
  simp only [optimize_stop_sequence]
  by_cases h : calculate_distance g PLANT_COORDS a.coordinates
      + calculate_distance g a.coordinates b.coordinates
      ≤ calculate_distance g PLANT_COORDS b.coordinates
      + calculate_distance g a.coordinates b.coordinates
  · rw [if_pos h]
    exact Or.inl rfl
  · rw [if_neg h]
    exact Or.inr rfl

theorem packLoop_sum (g : Geo) (o : Orders) :
    ∀ (n : ℕ) (v : ℚ),
      ((packLoop g o n v).1.map Trip.volume).sum
        + (((packLoop g o n v).2.1).map LeftoverItem.volume).sum
        = v - (packLoop g o n v).2.2 := by
  intro n
  induction n with
  | zero => intro v; simp [packLoop]
  | succ m ih =>
    intro v
    simp only [packLoop]
    by_cases hv : 0 < v
    · rw [if_pos hv]
      by_cases hb : BIG_TRUCK ≤ v
      · rw [if_pos hb]
        rcases hpl : packLoop g o m (v - BIG_TRUCK) with ⟨ts, ls, rem⟩
        have := ih (v - BIG_TRUCK)
        rw [hpl] at this
        simp only at this ⊢
        simp only [List.map_cons, List.sum_cons]
        have hvol : (mkDirectTrip g o TruckType.Big_Truck BIG_TRUCK).volume
            = BIG_TRUCK := rfl
        rw [hvol]
        linarith
      · rw [if_neg hb]
        by_cases hm2 : MEDIUM_TRUCK ≤ v
        · rw [if_pos hm2]
          rcases hpl : packLoop g o m (v - MEDIUM_TRUCK) with ⟨ts, ls, rem⟩
          have := ih (v - MEDIUM_TRUCK)
          rw [hpl] at this
          simp only at this ⊢
          simp only [List.map_cons, List.sum_cons]
          have hvol : (mkDirectTrip g o TruckType.Medium_Truck
              MEDIUM_TRUCK).volume = MEDIUM_TRUCK := rfl
          rw [hvol]
          linarith
        · rw [if_neg hm2]
          simp
    · rw [if_neg hv]
      simp

theorem packLoop_rem_nonneg (g : Geo) (o : Orders) :
    ∀ (n : ℕ) (v : ℚ), 0 ≤ v → 0 ≤ (packLoop g o n v).2.2 := by
  intro n
  induction n with
  | zero => intro v hv; simpa [packLoop] using hv
  | succ m ih =>
    intro v hv
    simp only [packLoop]
    by_cases hv0 : 0 < v
    · rw [if_pos hv0]
      by_cases hb : BIG_TRUCK ≤ v
      · rw [if_pos hb]
        rcases hpl : packLoop g o m (v - BIG_TRUCK) with ⟨ts, ls, rem⟩
        have := ih (v - BIG_TRUCK) (by simp only [BIG_TRUCK] at hb ⊢; linarith)
        rw [hpl] at this
        simpa using this
      · rw [if_neg hb]
        by_cases hm2 : MEDIUM_TRUCK ≤ v
        · rw [if_pos hm2]
          rcases hpl : packLoop g o m (v - MEDIUM_TRUCK) with ⟨ts, ls, rem⟩
          have := ih (v - MEDIUM_TRUCK)
            (by simp only [MEDIUM_TRUCK] at hm2 ⊢; linarith)
          rw [hpl] at this
          simpa using this
        · rw [if_neg hm2]
    · rw [if_neg hv0]
      simpa using hv

theorem packOrder_sum (g : Geo) (o : Orders) (hv : 0 ≤ o.order_volume) :
    (((packOrder g o).1).map Trip.volume).sum
      + (((packOrder g o).2).map LeftoverItem.volume).sum
      = o.order_volume := by
  rw [packOrder_eq]
  simp only
  have hrem : (packLoop g o (fuelFor o.order_volume) o.order_volume).2.2 = 0 :=
    le_antisymm (packLoop_rem g o _ _ le_rfl)
      (packLoop_rem_nonneg g o _ _ hv)
  have := packLoop_sum g o (fuelFor o.order_volume) o.order_volume
  rw [hrem] at this
  simpa using this

theorem packLoop_items_len (g : Geo) (o : Orders) :
    ∀ (n : ℕ) (v : ℚ), (packLoop g o n v).2.1.length ≤ 1 := by
  intro n
  induction n with
  | zero => intro v; simp [packLoop]
  | succ m ih =>
    intro v
    simp only [packLoop]
    by_cases hv : 0 < v
    · rw [if_pos hv]
      by_cases hb : BIG_TRUCK ≤ v
      · rw [if_pos hb]
        rcases hpl : packLoop g o m (v - BIG_TRUCK) with ⟨ts, ls, rem⟩
        have := ih (v - BIG_TRUCK)
        rw [hpl] at this
        simpa using this
      · rw [if_neg hb]
        by_cases hm2 : MEDIUM_TRUCK ≤ v
        · rw [if_pos hm2]
          rcases hpl : packLoop g o m (v - MEDIUM_TRUCK) with ⟨ts, ls, rem⟩
          have := ih (v - MEDIUM_TRUCK)
          rw [hpl] at this
          simpa using this
        · rw [if_neg hm2]
          simp
    · rw [if_neg hv]
      simp

theorem volumeFor_append (A B : List Trip) (cid : ℤ) :
    volumeFor (A ++ B) cid = volumeFor A cid + volumeFor B cid := by
  simp [volumeFor, refsFor, List.filter_append]

theorem refsFor_all {l : List Trip} {cid : ℤ}
    (h : ∀ t ∈ l, cid ∈ t.stops) : refsFor l cid = l := by
  simp only [refsFor]
  rw [List.filter_eq_self]
  intro t ht
  simpa using h t ht

theorem refsFor_none {l : List Trip} {cid : ℤ}
    (h : ∀ t ∈ l, cid ∉ t.stops) : refsFor l cid = [] := by
  simp only [refsFor]
  rw [List.filter_eq_nil]
  intro t ht
  simpa using h t ht

theorem mem_enum_getD {α : Type} [Inhabited α] {l : List α} {x : ℕ × α}
    (h : x ∈ l.enum) : x.1 < l.length ∧ x.2 = l.getD x.1 default := by
  have h' := List.mem_enum_iff_getElem?.mp h
  have hlt : x.1 < l.length := by
    by_contra hge
    push_neg at hge
    rw [List.getElem?_eq_none hge] at h'
    exact Option.noConfusion h'
  refine ⟨hlt, ?_⟩
  rw [List.getElem?_eq_getElem hlt] at h'
  injection h' with h'
  rw [List.getD_eq_getElem _ _ hlt, h']

theorem getD_mem_enum {α : Type} [Inhabited α] {l : List α} {k : ℕ}
    (h : k < l.length) : (k, l.getD k default) ∈ l.enum := by
  apply List.mem_enum_iff_getElem?.mpr
  rw [List.getElem?_eq_getElem h, List.getD_eq_getElem _ _ h]

theorem nodup_map_getD_inj {α β : Type} [Inhabited α] {f : α → β}
    {l : List α} (h : (l.map f).Nodup) {m k : ℕ} (hm : m < l.length)
    (hk : k < l.length)
    (he : f (l.getD m default) = f (l.getD k default)) : m = k := by
  rw [List.nodup_iff_injective_get] at h
  have hm' : m < (l.map f).length := by simpa using hm
  have hk' : k < (l.map f).length := by simpa using hk
  have hgm : (l.map f).get ⟨m, hm'⟩ = f (l.getD m default) := by
    rw [List.get_map]
    congr 1
    rw [List.getD_eq_getElem _ _ hm]
    simp [List.get_eq_getElem]
  have hgk : (l.map f).get ⟨k, hk'⟩ = f (l.getD k default) := by
    rw [List.get_map]
    congr 1
    rw [List.getD_eq_getElem _ _ hk]
    simp [List.get_eq_getElem]
  have : (⟨m, hm'⟩ : Fin (l.map f).length) = ⟨k, hk'⟩ := by
    apply h
    rw [hgm, hgk, he]
  exact Fin.val_eq_of_eq this

theorem packOrder_trips_stops (g : Geo) (o : Orders) :
    ∀ t ∈ (packOrder g o).1, t.stops = [o.customer_id] := by
  intro t ht
  rw [packOrder_eq] at ht
  exact (packLoop_trips g o _ _ t ht).2.1

theorem packOrder_items_cid (g : Geo) (o : Orders) :
    ∀ it ∈ (packOrder g o).2, it.customer_id = o.customer_id := by
  intro it hit
  rw [packOrder_eq] at hit
  exact (packLoop_items g o _ _ it hit).1

theorem packAll_target (g : Geo) :
    ∀ (P : List Orders) (o : Orders), o ∈ P →
      (P.map Orders.customer_id).Nodup →
      refsFor (packAll g P).1 o.customer_id = (packOrder g o).1
      ∧ (packAll g P).2.filter
          (fun it => it.customer_id = o.customer_id) = (packOrder g o).2 := by
  intro P
  induction P with
  | nil => intro o ho _; simp at ho
  | cons p rest ih =>
    intro o ho hnd
    rw [packAll_cons]
    have hndc : (p.customer_id :: rest.map Orders.customer_id).Nodup := by
      rw [← List.map_cons]
      exact hnd
    have hnd2 := List.nodup_cons.mp hndc
    have hpnot : p.customer_id ∉ rest.map Orders.customer_id := hnd2.1
    have hnd' : (rest.map Orders.customer_id).Nodup := hnd2.2
    simp only [refsFor, List.filter_append]
    by_cases hpo : p.customer_id = o.customer_id
    · have ho2 : o = p := by
        rcases List.mem_cons.mp ho with h | h
        · exact h
        · exfalso
          apply hpnot
          rw [hpo]
          exact List.mem_map_of_mem _ h
      constructor
      · have hall : (packOrder g p).1.filter
            (fun t => o.customer_id ∈ t.stops) = (packOrder g p).1 := by
          rw [List.filter_eq_self]
          intro t ht
          rw [packOrder_trips_stops g p t ht]
          simp [hpo]
        have hnone2 : (packAll g rest).1.filter
            (fun t => o.customer_id ∈ t.stops) = [] := by
          rw [List.filter_eq_nil]
          intro t ht hmem
          rcases packAll_trips g rest t ht with ⟨o', ho', _, hst, _⟩
          rw [hst] at hmem
          simp only [List.mem_singleton, decide_eq_true_eq] at hmem
          apply hpnot
          rw [hpo, hmem]
          exact List.mem_map_of_mem _ ho'
        rw [hall, hnone2, List.append_nil, ho2]
      · have hall : (packOrder g p).2.filter
            (fun it => it.customer_id = o.customer_id) = (packOrder g p).2 := by
          rw [List.filter_eq_self]
          intro it hit
          rw [packOrder_items_cid g p it hit]
          simp [hpo]
        have hnone2 : (packAll g rest).2.filter
            (fun it => it.customer_id = o.customer_id) = [] := by
          rw [List.filter_eq_nil]
          intro it hit hmem
          rcases packAll_items g rest it hit with ⟨o', ho', hcid, _⟩
          simp only [decide_eq_true_eq] at hmem
          apply hpnot
          rw [hpo, ← hmem, hcid]
          exact List.mem_map_of_mem _ ho'
        rw [hall, hnone2, List.append_nil, ho2]
    · have ho3 : o ∈ rest := by
        rcases List.mem_cons.mp ho with h | h
        · exact absurd (by rw [h]) hpo
        · exact h
      rcases ih o ho3 hnd' with ⟨ih1, ih2⟩
      constructor
      · have hnone1 : (packOrder g p).1.filter
            (fun t => o.customer_id ∈ t.stops) = [] := by
          rw [List.filter_eq_nil]
          intro t ht hmem
          rw [packOrder_trips_stops g p t ht] at hmem
          simp only [List.mem_singleton, decide_eq_true_eq] at hmem
          exact hpo hmem.symm
        rw [hnone1, List.nil_append]
        exact ih1
      · have hnone1 : (packOrder g p).2.filter
            (fun it => it.customer_id = o.customer_id) = [] := by
          rw [List.filter_eq_nil]
          intro it hit hmem
          simp only [decide_eq_true_eq] at hmem
          rw [packOrder_items_cid g p it hit] at hmem
          exact hpo hmem
        rw [hnone1, List.nil_append]
        exact ih2

theorem sharedTrip_stops {g : Geo} {avoid : Bool} {L : List LeftoverItem}
    {a : LeftoverItem} {i : ℕ} {processed : List ℕ} {c : Cand}
    (hfb : findBest g avoid L a i processed = some c) :
    a.customer_id ∈ (mkSharedTrip a c).stops
    ∧ c.bItem.customer_id ∈ (mkSharedTrip a c).stops
    ∧ ∀ x ∈ (mkSharedTrip a c).stops,
        x = a.customer_id ∨ x = c.bItem.customer_id := by
  rcases findBest_some hfb with ⟨hok, _⟩
  rcases hok with ⟨_, _, _, _, _, hs0, hs1, _, _, _⟩
  rcases optStops_cases g a c.bItem with he | he
  · rw [he] at hs0 hs1
    simp only [mkSharedTrip, hs0, hs1]
    refine ⟨by simp, by simp, ?_⟩
    intro x hx
    rcases List.mem_cons.mp hx with rfl | hx'
    · exact Or.inl rfl
    · rcases List.mem_singleton.mp hx' with rfl
      exact Or.inr rfl
  · rw [he] at hs0 hs1
    simp only [mkSharedTrip, hs0, hs1]
    refine ⟨by simp, by simp, ?_⟩
    intro x hx
    rcases List.mem_cons.mp hx with rfl | hx'
    · exact Or.inr rfl
    · rcases List.mem_singleton.mp hx' with rfl
      exact Or.inl rfl

theorem pairGo_refs_empty (g : Geo) (avoid : Bool) (L : List LeftoverItem)
    (cid : ℤ) :
    ∀ (rem : List (ℕ × LeftoverItem)) (processed : List ℕ),
      (∀ x ∈ rem, x ∈ L.enum) →
      (∀ m, m < L.length → m ∉ processed →
        (L.getD m default).customer_id ≠ cid) →
      refsFor (pairGo g avoid L rem processed) cid = [] := by
  intro rem
  induction rem with
  | nil => intro processed _ _; simp [pairGo, refsFor]
  | cons ia rest ih =>
    intro processed hsub hids
    obtain ⟨i, a⟩ := ia
    have hend := mem_enum_getD (hsub _ (List.mem_cons_self _ _))
    have hi : i < L.length := hend.1
    have ha : a = L.getD i default := hend.2
    have hsub' : ∀ x ∈ rest, x ∈ L.enum :=
      fun x hx => hsub x (List.mem_cons_of_mem _ hx)
    simp only [pairGo]
    by_cases hip : i ∈ processed
    · rw [if_pos hip]
      exact ih processed hsub' hids
    · rw [if_neg hip]
      have hacid : a.customer_id ≠ cid := by
        rw [ha]
        exact hids i hi hip
      cases hfb : findBest g avoid L a i processed with
      | some c =>
        rcases findBest_some hfb with ⟨hok, _⟩
        obtain ⟨hnip, hmemc, _⟩ := hok
        have hendc := mem_enum_getD hmemc
        have hise : c.idx < L.length := hendc.1
        have hbe : c.bItem = L.getD c.idx default := hendc.2
        have hcnotp : c.idx ∉ processed := fun hc => hnip (Or.inr hc)
        have hbcid : c.bItem.customer_id ≠ cid := by
          rw [hbe]
          exact hids c.idx hise hcnotp
        simp only [refsFor, List.filter_cons]
        rw [if_neg (by
          simp only [decide_eq_true_eq]
          intro hmem
          rcases (sharedTrip_stops hfb).2.2 cid hmem with h | h
          · exact hacid h.symm
          · exact hbcid h.symm)]
        have hids' : ∀ m, m < L.length → m ∉ (i :: c.idx :: processed) →
            (L.getD m default).customer_id ≠ cid := by
          intro m hm hmp
          apply hids m hm
          intro hc
          exact hmp (by simp [hc])
        exact ih _ hsub' hids'
      | none =>
        simp only [refsFor, List.filter_cons]
        rw [if_neg (by
          simp only [decide_eq_true_eq]
          intro hmem
          simp only [mkSoloTrip, List.mem_singleton] at hmem
          exact hacid hmem.symm)]
        have hids' : ∀ m, m < L.length → m ∉ (i :: processed) →
            (L.getD m default).customer_id ≠ cid := by
          intro m hm hmp
          apply hids m hm
          intro hc
          exact hmp (by simp [hc])
        exact ih _ hsub' hids'

theorem pairGo_refs_target (g : Geo) (avoid : Bool) (L : List LeftoverItem)
    (cid : ℤ) (hnd : (L.map LeftoverItem.customer_id).Nodup) (k : ℕ)
    (hk : k < L.length) (hkc : (L.getD k default).customer_id = cid) :
    ∀ (rem : List (ℕ × LeftoverItem)) (processed : List ℕ),
      (∀ x ∈ rem, x ∈ L.enum) →
      (∀ m, m < L.length → m ∉ processed → (m, L.getD m default) ∈ rem) →
      k ∉ processed →
      (∀ t ∈ pairGo g avoid L rem processed,
          t.route_type = RouteType.Shared → cid ∉ t.stops) →
      refsFor (pairGo g avoid L rem processed) cid
        = [mkSoloTrip g avoid (L.getD k default)] := by
  have huniq : ∀ m, m < L.length → (L.getD m default).customer_id = cid →
      m = k := by
    intro m hm hmc
    exact nodup_map_getD_inj hnd hm hk (by rw [hmc, hkc])
  intro rem
  induction rem with
  | nil =>
    intro processed _ hinv hkp _
    exact absurd (hinv k hk hkp) (List.not_mem_nil _)
  | cons ia rest ih =>
    intro processed hsub hinv hkp hsh
    obtain ⟨i, a⟩ := ia
    have hend := mem_enum_getD (hsub _ (List.mem_cons_self _ _))
    have hi : i < L.length := hend.1
    have ha : a = L.getD i default := hend.2
    have hsub' : ∀ x ∈ rest, x ∈ L.enum :=
      fun x hx => hsub x (List.mem_cons_of_mem _ hx)
    simp only [pairGo] at hsh ⊢
    by_cases hip : i ∈ processed
    · rw [if_pos hip] at hsh ⊢
      have hinv' : ∀ m, m < L.length → m ∉ processed →
          (m, L.getD m default) ∈ rest := by
        intro m hm hmp
        have hmi : m ≠ i := fun he => hmp (he ▸ hip)
        rcases List.mem_cons.mp (hinv m hm hmp) with he | he
        · exact absurd (congrArg Prod.fst he) hmi
        · exact he
      exact ih processed hsub' hinv' hkp hsh
    · rw [if_neg hip] at hsh ⊢
      cases hfb : findBest g avoid L a i processed with
      | some c =>
        rw [hfb] at hsh
        rcases findBest_some hfb with ⟨hok, _⟩
        obtain ⟨hnip, hmemc, _⟩ := hok
        have hendc := mem_enum_getD hmemc
        have hie : c.idx < L.length := hendc.1
        have hbe : c.bItem = L.getD c.idx default := hendc.2
        have hcnotp : c.idx ∉ processed := fun hc => hnip (Or.inr hc)
        have hshT : cid ∉ (mkSharedTrip a c).stops :=
          hsh _ (List.mem_cons_self _ _) rfl
        have hacid : a.customer_id ≠ cid := by
          intro he
          exact hshT (he ▸ (sharedTrip_stops hfb).1)
        have hbcid : c.bItem.customer_id ≠ cid := by
          intro he
          exact hshT (he ▸ (sharedTrip_stops hfb).2.1)
        have hki : k ≠ i := by
          intro he
          apply hacid
          rw [ha, ← he, hkc]
        have hkc2 : k ≠ c.idx := by
          intro he
          apply hbcid
          rw [hbe, ← he, hkc]
        simp only [refsFor, List.filter_cons]
        rw [if_neg (by
          simp only [decide_eq_true_eq]
          exact hshT)]
        have hinv' : ∀ m, m < L.length → m ∉ (i :: c.idx :: processed) →
            (m, L.getD m default) ∈ rest := by
          intro m hm hmp
          have hmi : m ≠ i := fun he => hmp (by simp [he])
          have hmp' : m ∉ processed := fun hc => hmp (by simp [hc])
          rcases List.mem_cons.mp (hinv m hm hmp') with he | he
          · exact absurd (congrArg Prod.fst he) hmi
          · exact he
        have hkp' : k ∉ (i :: c.idx :: processed) := by
          intro hc
          rcases List.mem_cons.mp hc with he | hc
          · exact hki he
          rcases List.mem_cons.mp hc with he | hc
          · exact hkc2 he
          · exact hkp hc
        exact ih _ hsub' hinv' hkp'
          (fun t ht hts => hsh t (List.mem_cons_of_mem _ ht) hts)
      | none =>
        rw [hfb] at hsh
        by_cases hik : i = k
        · have hacid : a.customer_id = cid := by
            rw [ha, hik, hkc]
          simp only [refsFor, List.filter_cons]
          rw [if_pos (by
            simp only [mkSoloTrip, List.mem_singleton, decide_eq_true_eq]
            exact hacid.symm)]
          have hrec : refsFor (pairGo g avoid L rest (i :: processed)) cid
              = [] := by
            apply pairGo_refs_empty g avoid L cid rest (i :: processed) hsub'
            intro m hm hmp
            intro hmc
            have := huniq m hm hmc
            apply hmp
            rw [this, ← hik]
            exact List.mem_cons_self _ _
          rw [show (List.filter (fun t => decide (cid ∈ t.stops))
              (pairGo g avoid L rest (i :: processed)))
              = refsFor (pairGo g avoid L rest (i :: processed)) cid from rfl]
          rw [hrec, ha, hik]
        · have hacid : a.customer_id ≠ cid := by
            rw [ha]
            intro hmc
            exact hik (huniq i hi hmc)
          simp only [refsFor, List.filter_cons]
          rw [if_neg (by
            simp only [mkSoloTrip, List.mem_singleton, decide_eq_true_eq]
            intro he
            exact hacid he.symm)]
          have hinv' : ∀ m, m < L.length → m ∉ (i :: processed) →
              (m, L.getD m default) ∈ rest := by
            intro m hm hmp
            have hmi : m ≠ i := fun he => hmp (by simp [he])
            have hmp' : m ∉ processed := fun hc => hmp (by simp [hc])
            rcases List.mem_cons.mp (hinv m hm hmp') with he | he
            · exact absurd (congrArg Prod.fst he) hmi
            · exact he
          have hkp' : k ∉ (i :: processed) := by
            intro hc
            rcases List.mem_cons.mp hc with he | hc
            · exact hik he.symm
            · exact hkp hc
          exact ih _ hsub' hinv' hkp'
            (fun t ht hts => hsh t (List.mem_cons_of_mem _ ht) hts)

theorem prioritize_perm (r : ℚ) (shuffle : List Orders → List Orders)
    (hsh : ∀ l : List Orders, List.Perm (shuffle l) l) (pool : List Orders) :
    List.Perm (prioritize_pool_orders r shuffle pool) pool := by
  have h2 : List.Perm
      (pool.filter (fun o => MEDIUM_TRUCK ≤ o.order_volume)
        ++ pool.filter (fun o => o.order_volume < MEDIUM_TRUCK)) pool := by
    have hfp := List.filter_append_perm
      (fun o => decide (MEDIUM_TRUCK ≤ o.order_volume)) pool
    have heq : pool.filter
        (fun x => !(decide (MEDIUM_TRUCK ≤ x.order_volume)))
        = pool.filter (fun o => o.order_volume < MEDIUM_TRUCK) := by
      apply List.filter_congr
      intro x _
      by_cases hx : MEDIUM_TRUCK ≤ x.order_volume
      · simp [hx, not_lt.mpr hx]
      · simp [hx, lt_of_not_le hx]
    rw [heq] at hfp
    exact hfp
  simp only [prioritize_pool_orders]
  by_cases h : r < 45/100
  · rw [if_pos h]
    exact ((sortByD_perm _ _).append_right _).trans h2
  · rw [if_neg h]
    exact (hsh _).trans h2

theorem packOrder_items_len (g : Geo) (o : Orders) :
    (packOrder g o).2.length ≤ 1 := by
  rw [packOrder_eq]
  exact packLoop_items_len g o _ _

theorem packAll_ids_sublist (g : Geo) :
    ∀ P : List Orders,
      List.Sublist ((packAll g P).2.map LeftoverItem.customer_id)
        (P.map Orders.customer_id) := by
  intro P
  induction P with
  | nil => simp [packAll]
  | cons p rest ih =>
    rw [packAll_cons]
    simp only [List.map_append, List.map_cons]
    have hseg : List.Sublist
        ((packOrder g p).2.map LeftoverItem.customer_id) [p.customer_id] := by
      rcases hits : (packOrder g p).2 with _ | ⟨it, rest2⟩
      · simp
      · rcases rest2 with _ | ⟨it2, rest3⟩
        · have hc : it.customer_id = p.customer_id :=
            packOrder_items_cid g p it
              (by rw [hits]; exact List.mem_cons_self _ _)
          simp [hc]
        · exfalso
          have hlen := packOrder_items_len g p
          rw [hits] at hlen
          simp at hlen
    have := List.Sublist.append hseg ih
    simpa using this

-- --- CLAIM C2 ---

/-- C2 as stated is false: with two 5 m³ orders (unique positive customer
ids) the two leftovers pair into one Shared trip of combined volume 10, so
the summed volume of the trips referencing customer 1 is 10, not 5. -/
theorem volume_conservation_counterexample :
    wOA ∈ ([wOA, wOB] : List Orders)
    ∧ (([wOA, wOB] : List Orders).map Orders.customer_id).Nodup
    ∧ 0 < wOA.order_volume
    ∧ volumeFor (generate_trips_for_pool wGeo false (3/10) id [wOA, wOB])
        wOA.customer_id ≠ wOA.order_volume := by
  refine ⟨List.mem_cons_self _ _, by simp [wOA, wOB], by norm_num [wOA], ?_⟩
  rw [wGen_eval]
  norm_num [volumeFor, refsFor, wSharedTrip, wOA]


theorem pairLeftovers_eq (g : Geo) (avoid : Bool) (lo : List LeftoverItem) :
    pairLeftovers g avoid lo
      = pairGo g avoid (sortByD LeftoverItem.volume lo)
          ((sortByD LeftoverItem.volume lo).enum) [] := rfl

/-- C2 (amended): for every order with unique customer id and nonnegative
volume, if no emitted Shared trip references the order's customer id
(a Shared trip carries the combined volume of two orders, which is what
the counterexample exploits), then the sum of the volume fields over all
emitted trips whose stops contain the order's customer id equals the
original order volume — the Direct trips plus at most one Leftover trip. -/
theorem volume_conservation_amended (g : Geo) (avoid : Bool) (r : ℚ)
    (shuffle : List Orders → List Orders) (pool : List Orders) (o : Orders)
    (hsh : ∀ l : List Orders, List.Perm (shuffle l) l)
    (ho : o ∈ pool)
    (hnodup : (pool.map Orders.customer_id).Nodup)
    (hvol : 0 ≤ o.order_volume)
    (hnoshared : ∀ t ∈ generate_trips_for_pool g avoid r shuffle pool,
        t.route_type = RouteType.Shared → o.customer_id ∉ t.stops) :
    volumeFor (generate_trips_for_pool g avoid r shuffle pool)
      o.customer_id = o.order_volume := by
  have hperm := prioritize_perm r shuffle hsh pool
  rw [generate_eq] at hnoshared ⊢
  have hoP : o ∈ prioritize_pool_orders r shuffle pool := hperm.mem_iff.mpr ho
  have hndP : ((prioritize_pool_orders r shuffle pool).map
      Orders.customer_id).Nodup :=
    ((hperm.map Orders.customer_id).nodup_iff).mpr hnodup
  rcases packAll_target g (prioritize_pool_orders r shuffle pool) o hoP hndP
    with ⟨htr, hit⟩
  rw [volumeFor_append]
  set lo := (packAll g (prioritize_pool_orders r shuffle pool)).2 with hlodef
  set L := sortByD LeftoverItem.volume lo with hLdef
  rw [pairLeftovers_eq] at hnoshared ⊢
  rw [← hLdef] at hnoshared ⊢
  have hdirect : volumeFor
      (packAll g (prioritize_pool_orders r shuffle pool)).1 o.customer_id
      = (((packOrder g o).1).map Trip.volume).sum := by
    simp only [volumeFor]
    rw [htr]
  rw [hdirect]
  have hndlo : (lo.map LeftoverItem.customer_id).Nodup :=
    List.Sublist.nodup
      (packAll_ids_sublist g (prioritize_pool_orders r shuffle pool)) hndP
  have hLperm : List.Perm L lo := by
    rw [hLdef]
    exact sortByD_perm _ _
  have hndL : (L.map LeftoverItem.customer_id).Nodup :=
    ((hLperm.map _).nodup_iff).mpr hndlo
  have hfL : List.Perm
      (L.filter (fun it => it.customer_id = o.customer_id))
      ((packOrder g o).2) := hit ▸ hLperm.filter _
  rcases hitems : (packOrder g o).2 with _ | ⟨it, rest2⟩
  · have hfLnil : L.filter (fun x => x.customer_id = o.customer_id) = [] :=
      List.Perm.eq_nil (hitems ▸ hfL)
    have hnone : ∀ m, m < L.length → m ∉ ([] : List ℕ) →
        (L.getD m default).customer_id ≠ o.customer_id := by
      intro m hm _ hc
      have hmem : L.getD m default ∈ L := by
        rw [List.getD_eq_getElem _ _ hm]
        exact List.getElem_mem hm
      have hmf : L.getD m default ∈ L.filter
          (fun x => x.customer_id = o.customer_id) :=
        List.mem_filter.mpr ⟨hmem, by
          simp only [decide_eq_true_eq]
          exact hc⟩
      rw [hfLnil] at hmf
      exact List.not_mem_nil _ hmf
    have hrefs : refsFor (pairGo g avoid L L.enum []) o.customer_id = [] :=
      pairGo_refs_empty g avoid L o.customer_id L.enum []
        (fun x hx => hx) (fun m hm hmp => hnone m hm hmp)
    have hzero : volumeFor (pairGo g avoid L L.enum []) o.customer_id = 0 := by
      simp only [volumeFor]
      rw [hrefs]
      simp
    rw [hzero, add_zero]
    have hps := packOrder_sum g o hvol
    rw [hitems] at hps
    simpa using hps
  · rcases rest2 with _ | ⟨it2, rest3⟩
    · have hfLone : L.filter (fun x => x.customer_id = o.customer_id)
          = [it] := List.Perm.eq_singleton (hitems ▸ hfL)
      have hitcid : it.customer_id = o.customer_id :=
        packOrder_items_cid g o it
          (by rw [hitems]; exact List.mem_cons_self _ _)
      have hitL : it ∈ L := by
        have hmf : it ∈ L.filter (fun x => x.customer_id = o.customer_id) := by
          rw [hfLone]
          exact List.mem_singleton.mpr rfl
        exact List.mem_of_mem_filter hmf
      rcases List.mem_iff_get.mp hitL with ⟨⟨k, hk⟩, hget⟩
      have hgetD : L.getD k default = it := by
        rw [List.getD_eq_getElem _ _ hk, ← hget]
        simp [List.get_eq_getElem]
      have hkc : (L.getD k default).customer_id = o.customer_id := by
        rw [hgetD, hitcid]
      have hsh2 : ∀ t ∈ pairGo g avoid L L.enum [],
          t.route_type = RouteType.Shared → o.customer_id ∉ t.stops := by
        intro t ht
        exact hnoshared t (List.mem_append_right _ ht)
      have hrefs : refsFor (pairGo g avoid L L.enum []) o.customer_id
          = [mkSoloTrip g avoid (L.getD k default)] :=
        pairGo_refs_target g avoid L o.customer_id hndL k hk hkc L.enum []
          (fun x hx => hx) (fun m hm _ => getD_mem_enum hm)
          (List.not_mem_nil k) hsh2
      have hvolpair : volumeFor (pairGo g avoid L L.enum []) o.customer_id
          = it.volume := by
        simp only [volumeFor]
        rw [hrefs, hgetD]
        simp [mkSoloTrip]
      rw [hvolpair]
      have hps := packOrder_sum g o hvol
      rw [hitems] at hps
      simpa using hps
    · exfalso
      have hlen := packOrder_items_len g o
      rw [hitems] at hlen
      simp at hlen

def wSoloTrip : Trip :=
  { truck_type := TruckType.Small_Truck, stops := [1], volume := 2,
    duration := 1, concrete_age_at_finish := none,
    route_type := RouteType.Leftover }

/-- Concrete run with a single 2 m³ order: one Leftover solo trip. -/
theorem wGen1_eval :
    generate_trips_for_pool wGeo false (3/10) id [wO1] = [wSoloTrip] := by
  norm_num [generate_trips_for_pool, prioritize_pool_orders, sortByD, insertByD,
    packAll, packOrder, packLoop, fuelFor, mkDirectTrip, pairLeftovers, pairGo,
    findBest, considerCand, mkCand, pairScore, sharedAge, sharedDuration,
    optimize_stop_sequence, calculate_distance, get_travel_time, get_best_truck,
    mkSharedTrip, mkSoloTrip, List.enum, List.enumFrom, wO1, wGeo, wOk,
    wSoloTrip, BIG_TRUCK, MEDIUM_TRUCK, SMALL_TRUCK, MAX_CONCRETE_LIFESPAN,
    TIME_LOADING, TIME_SERVICE, SPEED_KMH, PLANT_COORDS, Option.some_ne_none]

theorem volume_conservation_amended_witness :
    (∀ l : List Orders, List.Perm (id l) l)
    ∧ wO1 ∈ ([wO1] : List Orders)
    ∧ (([wO1] : List Orders).map Orders.customer_id).Nodup
    ∧ 0 ≤ wO1.order_volume
    ∧ (∀ t ∈ generate_trips_for_pool wGeo false (3/10) id [wO1],
        t.route_type = RouteType.Shared → wO1.customer_id ∉ t.stops)
    ∧ volumeFor (generate_trips_for_pool wGeo false (3/10) id [wO1])
        wO1.customer_id = wO1.order_volume :=
  ⟨fun l => List.Perm.refl l, List.mem_cons_self _ _,
   by simp [wO1], by norm_num [wO1],
   by
     rw [wGen1_eval]
     intro t ht hrt
     rw [List.mem_singleton] at ht
     rw [ht] at hrt
     simp [wSoloTrip] at hrt,
   volume_conservation_amended wGeo false (3/10) id [wO1] wO1
     (fun l => List.Perm.refl l) (List.mem_cons_self _ _)
     (by simp [wO1]) (by norm_num [wO1])
     (by
       rw [wGen1_eval]
       intro t ht hrt
       rw [List.mem_singleton] at ht
       rw [ht] at hrt
       simp [wSoloTrip] at hrt)⟩
